import Mathlib

/-!
Verification of the virtual-file-store agent system described in the
repository specification, together with embeddings of the SQL query helpers
and the pre-tool-use hook that are present in the repository sources.

The VirtualFileSystem, PathNormalizer, Serializer, ToolExecutors and
AgentLoop components are not shipped in the source tree; they are modelled
here from the specification text.  Paths are represented by their list of
segments (the root is the empty list); a `FileNode` carries its type and
content, with the set of child paths derivable from the node map.
-/

-- Definitions

namespace VfsModel

/-- Error taxonomy of the specification (section 7). -/
inductive VfsError where
  | invalidPath
  | pathConflict
  | notFound
  | outOfRange
  | corruptState
deriving DecidableEq

/-- A normalized absolute path, as its list of segments; `[]` is the root. -/
abbrev Path := List String

instance {ε α : Type _} [DecidableEq ε] [DecidableEq α] :
    DecidableEq (Except ε α) := fun x y =>
  match x, y with
  | .ok a, .ok b =>
      if h : a = b then isTrue (by rw [h])
      else isFalse (fun hc => by cases hc; exact h rfl)
  | .ok _, .error _ => isFalse (fun hc => by cases hc)
  | .error _, .ok _ => isFalse (fun hc => by cases hc)
  | .error e, .error f =>
      if h : e = f then isTrue (by rw [h])
      else isFalse (fun hc => by cases hc; exact h rfl)

/-- Boolean strict lexicographic order on character lists, comparing
code points. -/
def charListLt : List Char → List Char → Bool
  | [], [] => false
  | [], _ :: _ => true
  | _ :: _, [] => false
  | a :: as, b :: bs =>
      if a < b then true
      else if b < a then false
      else charListLt as bs

/-- Boolean strict order on strings (lexicographic on their characters). -/
def strLt (a b : String) : Bool := charListLt a.data b.data

/-- Boolean strict lexicographic order on paths, segment by segment. -/
def pathLt : Path → Path → Bool
  | [], [] => false
  | [], _ :: _ => true
  | _ :: _, [] => false
  | a :: as, b :: bs =>
      if strLt a b then true
      else if strLt b a then false
      else pathLt as bs

/-- Boolean prefix test on paths. -/
def isPrefixB : Path → Path → Bool
  | [], _ => true
  | _ :: _, [] => false
  | a :: as, b :: bs => if a = b then isPrefixB as bs else false

/-- Split a character list at every occurrence of `sep`; `cur` is the
(reversed) chunk currently being accumulated. -/
def splitCharAux (sep : Char) (cur : List Char) : List Char → List (List Char)
  | [] => [cur.reverse]
  | c :: rest =>
      if c = sep then cur.reverse :: splitCharAux sep [] rest
      else splitCharAux sep (c :: cur) rest

/-- Split a character list at every occurrence of `sep`. -/
def splitChar (sep : Char) (l : List Char) : List (List Char) :=
  splitCharAux sep [] l

/-- Raw separator-split segments of a path string, with the empty chunks
produced by leading, trailing or repeated separators removed. -/
def segmentsOf (raw : String) : List String :=
  ((splitChar '/' raw.data).map String.mk).filter (fun s => s ≠ "")

/-- Resolve `.` and `..` segments against an accumulator of already
accepted segments (held in reverse); `none` means the path escaped root. -/
def resolveDots (acc : List String) : List String → Option (List String)
  | [] => some acc.reverse
  | s :: rest =>
      if s = "." then resolveDots acc rest
      else if s = ".." then
        match acc with
        | [] => none
        | _ :: acc' => resolveDots acc' rest
      else resolveDots (s :: acc) rest

/-- Modelled from the spec: `PathNormalizer.normalize(raw)` canonicalizes a
raw path string into the segment list of its absolute form. -/
def normalize (raw : String) : Except VfsError Path :=
  match resolveDots [] (segmentsOf raw) with
  | none => .error .invalidPath
  | some p => .ok p

/-- A segment that can appear in a normalized path. -/
def validSeg (s : String) : Prop :=
  s ≠ "" ∧ s ≠ "." ∧ s ≠ ".." ∧ '/' ∉ s.data

instance (s : String) : Decidable (validSeg s) := by
  unfold validSeg; infer_instance

/-- The characters of a nonempty path: a separator before each segment. -/
def segsChars (p : Path) : List Char :=
  p.foldr (fun s acc => '/' :: s.data ++ acc) []

/-- Render a normalized path back to its string form. -/
def pathToString (p : Path) : String :=
  match p with
  | [] => "/"
  | _ :: _ => String.mk (segsChars p)

inductive NodeType where
  | file
  | directory
deriving DecidableEq

/-- A file or directory entry of the tree. -/
structure FileNode where
  type : NodeType
  content : Option String
deriving DecidableEq

/-- The node stored for every directory. -/
def dirNode : FileNode := ⟨.directory, none⟩

/-- The node stored for a file with the given content. -/
def fileNode (c : String) : FileNode := ⟨.file, some c⟩

/-- Modelled from the spec: the VirtualFileSystem owns the path→node
mapping and a version counter incremented once per mutating call. -/
structure Vfs where
  nodes : List (Path × FileNode)
  version : Nat
deriving DecidableEq

/-- The state of a brand-new project: just the root directory. -/
def emptyVfs : Vfs := ⟨[([], dirNode)], 0⟩

/-- Look a path up in the node list (first match). -/
def lookupL : List (Path × FileNode) → Path → Option FileNode
  | [], _ => none
  | e :: rest, p => if e.1 = p then some e.2 else lookupL rest p

/-- Look a normalized path up in the tree. -/
def lookupNode (v : Vfs) (p : Path) : Option FileNode := lookupL v.nodes p

/-- Insert (or replace) a binding, keeping the list sorted by `pathLt`. -/
def insertNode : List (Path × FileNode) → Path → FileNode → List (Path × FileNode)
  | [], p, n => [(p, n)]
  | e :: rest, p, n =>
      if e.1 = p then (p, n) :: rest
      else if pathLt p e.1 then (p, n) :: e :: rest
      else e :: insertNode rest p n

/-- The node list is strictly sorted by path. -/
def SortedNodes (ns : List (Path × FileNode)) : Prop :=
  ns.Pairwise (fun a b => pathLt a.1 b.1 = true)

/-- Batch insertion of a binding list. -/
def insertAll (ns : List (Path × FileNode)) (l : List (Path × FileNode)) :
    List (Path × FileNode) :=
  l.foldl (fun acc e => insertNode acc e.1 e.2) ns

/-- All proper prefixes of a path, shortest (the root) first. -/
def properPrefixes (p : Path) : List Path :=
  (List.range p.length).map (fun i => p.take i)

/-- Walk a list of paths, creating a directory for every one that is
missing and failing with `PathConflict` when a file occupies one. -/
def ensureList (ns : List (Path × FileNode)) :
    List Path → Except VfsError (List (Path × FileNode))
  | [] => .ok ns
  | q :: qs =>
      match lookupL ns q with
      | some n =>
          if n.type = .directory then ensureList ns qs
          else .error .pathConflict
      | none => ensureList (insertNode ns q dirNode) qs

/-- Modelled from the spec: auto-create any missing ancestor directories of
`p` (section 4.2, `createFile`). -/
def ensureAncestors (ns : List (Path × FileNode)) (p : Path) :
    Except VfsError (List (Path × FileNode)) :=
  ensureList ns (properPrefixes p)

/-- Modelled from the spec: `createFile(path, content)` — upsert semantics,
`PathConflict` if a directory occupies the path, ancestors auto-created. -/
def createFile (raw content : String) (v : Vfs) : Except VfsError Vfs :=
  match normalize raw with
  | .error e => .error e
  | .ok p =>
      match lookupL v.nodes p with
      | some n =>
          if n.type = .directory then .error .pathConflict
          else .ok ⟨insertNode v.nodes p (fileNode content), v.version + 1⟩
      | none =>
          match ensureAncestors v.nodes p with
          | .error e => .error e
          | .ok ns => .ok ⟨insertNode ns p (fileNode content), v.version + 1⟩

/-- Modelled from the spec: `readFile(path)` — `NotFound` if absent or a
directory. -/
def readFile (raw : String) (v : Vfs) : Except VfsError String :=
  match normalize raw with
  | .error e => .error e
  | .ok p =>
      match lookupL v.nodes p with
      | some ⟨NodeType.file, some c⟩ => .ok c
      | _ => .error .notFound

/-- Number of occurrences of `pat` in `text` (matches at every position). -/
def occCount (pat text : List Char) : Nat :=
  ((text.tails).filter (fun t => pat.isPrefixOf t)).length

/-- Replace the leftmost occurrence of `pat` by `rep`. -/
def replaceOnce (pat rep : List Char) : List Char → List Char
  | [] => []
  | c :: rest =>
      if pat.isPrefixOf (c :: rest) then rep ++ (c :: rest).drop pat.length
      else c :: replaceOnce pat rep rest

/-- Modelled from the spec: `replaceInFile(path, oldText, newText)` —
`NotFound` unless the file exists and `oldText` occurs exactly once. -/
def replaceInFile (raw oldText newText : String) (v : Vfs) :
    Except VfsError Vfs :=
  match normalize raw with
  | .error e => .error e
  | .ok p =>
      match lookupL v.nodes p with
      | some ⟨NodeType.file, some c⟩ =>
          if occCount oldText.data c.data = 1 then
            .ok ⟨insertNode v.nodes p
                   (fileNode (String.mk
                     (replaceOnce oldText.data newText.data c.data))),
                 v.version + 1⟩
          else .error .notFound
      | _ => .error .notFound

/-- The lines of a file content (split at every newline). -/
def linesOf (c : String) : List String :=
  (splitChar '\n' c.data).map String.mk

/-- Join lines back with newline separators. -/
def joinLines (ls : List String) : String :=
  match ls with
  | [] => ""
  | s :: rest =>
      String.mk (s.data ++ rest.foldr (fun t acc => '\n' :: t.data ++ acc) [])

/-- Modelled from the spec: `insertAt(path, lineNumber, text)` — inserts at
a 0-indexed line boundary, `OutOfRange` if the line number exceeds
`lineCount + 1`. -/
def insertAt (raw : String) (lineNumber : Nat) (text : String) (v : Vfs) :
    Except VfsError Vfs :=
  match normalize raw with
  | .error e => .error e
  | .ok p =>
      match lookupL v.nodes p with
      | some ⟨NodeType.file, some c⟩ =>
          if lineNumber > (linesOf c).length + 1 then .error .outOfRange
          else .ok ⟨insertNode v.nodes p
                 (fileNode (joinLines
                   ((linesOf c).take lineNumber ++ [text] ++
                     (linesOf c).drop lineNumber))),
               v.version + 1⟩
      | _ => .error .notFound

/-- Modelled from the spec: `deleteNode(path)` — recursive for directories,
`NotFound` if absent, the root is protected. -/
def deleteNode (raw : String) (v : Vfs) : Except VfsError Vfs :=
  match normalize raw with
  | .error e => .error e
  | .ok p =>
      if p = [] then .error .invalidPath
      else
        match lookupL v.nodes p with
        | none => .error .notFound
        | some _ =>
            .ok ⟨v.nodes.filter (fun e => ! isPrefixB p e.1), v.version + 1⟩

/-- Modelled from the spec: `renameNode(oldPath, newPath)` — `NotFound` if
the old path is absent, `PathConflict` if the new path or any rewritten
descendant path is occupied; descendants are rewritten as one atomic
unit. -/
def renameNode (rawOld rawNew : String) (v : Vfs) : Except VfsError Vfs :=
  match normalize rawOld, normalize rawNew with
  | .error e, _ => .error e
  | _, .error e => .error e
  | .ok pOld, .ok pNew =>
      if pOld = [] then .error .invalidPath
      else
        match lookupL v.nodes pOld with
        | none => .error .notFound
        | some _ =>
            if (lookupL v.nodes pNew).isSome then .error .pathConflict
            else
              if ((v.nodes.filter (fun e => isPrefixB pOld e.1)).map
                    (fun e => (pNew ++ e.1.drop pOld.length, e.2))).any
                  (fun e =>
                    (lookupL (v.nodes.filter (fun e => ! isPrefixB pOld e.1))
                      e.1).isSome) then
                .error .pathConflict
              else
                match ensureAncestors
                    (v.nodes.filter (fun e => ! isPrefixB pOld e.1)) pNew with
                | .error e => .error e
                | .ok rest' =>
                    .ok ⟨insertAll rest'
                          ((v.nodes.filter (fun e => isPrefixB pOld e.1)).map
                            (fun e => (pNew ++ e.1.drop pOld.length, e.2))),
                         v.version + 1⟩

/-- Insert a name into a name list sorted by `strLt`. -/
def insertSortedStr (s : String) : List String → List String
  | [] => [s]
  | t :: rest => if strLt s t then s :: t :: rest else t :: insertSortedStr s rest

/-- Sort a list of names by `strLt`. -/
def sortNames (l : List String) : List String := l.foldr insertSortedStr []

/-- The names of the immediate children of `p` (the spec's `childPaths`). -/
def childNames (v : Vfs) (p : Path) : List String :=
  v.nodes.filterMap (fun e =>
    if e.1.length = p.length + 1 ∧ isPrefixB p e.1 = true then e.1.getLast?
    else none)

/-- Modelled from the spec: `list(path)` — immediate children sorted by
name, `NotFound` if the path is not a directory. -/
def list (raw : String) (v : Vfs) : Except VfsError (List String) :=
  match normalize raw with
  | .error e => .error e
  | .ok p =>
      match lookupL v.nodes p with
      | some n =>
          if n.type = .directory then .ok (sortNames (childNames v p))
          else .error .notFound
      | none => .error .notFound

/-- Modelled from the spec: `listAll()` — the full path→node snapshot. -/
def listAll (v : Vfs) : List (Path × FileNode) := v.nodes

/-- Modelled from the spec: `serialize(vfs)` — the ordered path→node map
(the node list is kept sorted, so the emitted keys are ordered). -/
def serialize (v : Vfs) : List (String × FileNode) :=
  v.nodes.map (fun e => (pathToString e.1, e.2))

/-- Fold the stored entries into a node list, normalizing every key,
reconstructing implied directories and rejecting type disagreements. -/
def deserializeAux (ns : List (Path × FileNode)) :
    List (String × FileNode) → Except VfsError (List (Path × FileNode))
  | [] => .ok ns
  | (s, fn) :: rest =>
      match normalize s with
      | .error _ => .error .corruptState
      | .ok p =>
          match lookupL ns p with
          | some existing =>
              if existing.type = fn.type then
                deserializeAux (insertNode ns p fn) rest
              else .error .corruptState
          | none =>
              match ensureAncestors ns p with
              | .error _ => .error .corruptState
              | .ok ns' => deserializeAux (insertNode ns' p fn) rest

/-- Modelled from the spec: `deserialize(map)` — reconstructs a
VirtualFileSystem, failing with `CorruptState` on type disagreement or a
key that fails normalization. -/
def deserialize (entries : List (String × FileNode)) : Except VfsError Vfs :=
  match deserializeAux emptyVfs.nodes entries with
  | .error e => .error e
  | .ok ns => .ok ⟨ns, 0⟩

/-- The fixed ordered entry-point candidate list. -/
def entryPointCandidates : List String :=
  ["/App.jsx", "/App.tsx", "/index.jsx", "/index.tsx"]

/-- Whether a raw path denotes an existing node of the tree. -/
def existsInTree (v : Vfs) (raw : String) : Bool :=
  match normalize raw with
  | .ok p => (lookupL v.nodes p).isSome
  | .error _ => false

/-- Modelled from the spec: the detected entry point is the first candidate
that exists in the tree; `none` reports "no entry point". -/
def detectEntryPoint (v : Vfs) : Option String :=
  entryPointCandidates.find? (existsInTree v)

/-- The path→content map restricted to files, handed to the preview
collaborator. -/
def previewFiles (v : Vfs) : List (String × String) :=
  v.nodes.filterMap (fun e =>
    match e.2.content with
    | some c => some (pathToString e.1, c)
    | none => none)

/-- Canonicity of directory nodes: every directory entry is `dirNode`. -/
def CanonDirs (ns : List (Path × FileNode)) : Prop :=
  ∀ p n, lookupL ns p = some n → n.type = .directory → n = dirNode

/-- Well-formedness of a node list: sorted unique keys, the root present,
every proper prefix of a key an existing directory, directories canonical,
keys made of valid segments.  These are the invariants of spec section 3. -/
structure WFn (ns : List (Path × FileNode)) : Prop where
  sorted : SortedNodes ns
  root : lookupL ns [] = some dirNode
  closed : ∀ p n, lookupL ns p = some n → ∀ i, i < p.length →
    lookupL ns (p.take i) = some dirNode
  canon : CanonDirs ns
  valid : ∀ p n, lookupL ns p = some n → ∀ s ∈ p, validSeg s

/-- Well-formedness of a tree. -/
def WF (v : Vfs) : Prop := WFn v.nodes

/-- The states reachable in a run: the empty tree followed by any sequence
of successful mutating operations. -/
inductive Reachable : Vfs → Prop where
  | empty : Reachable emptyVfs
  | doCreate {v v' : Vfs} (raw content : String) : Reachable v →
      createFile raw content v = .ok v' → Reachable v'
  | doReplace {v v' : Vfs} (raw oldText newText : String) : Reachable v →
      replaceInFile raw oldText newText v = .ok v' → Reachable v'
  | doInsert {v v' : Vfs} (raw : String) (ln : Nat) (text : String) :
      Reachable v → insertAt raw ln text v = .ok v' → Reachable v'
  | doDelete {v v' : Vfs} (raw : String) : Reachable v →
      deleteNode raw v = .ok v' → Reachable v'
  | doRename {v v' : Vfs} (rawOld rawNew : String) : Reachable v →
      renameNode rawOld rawNew v = .ok v' → Reachable v'

/-- Fallback state used to embed concrete example states. -/
def resVfs : Except VfsError Vfs → Vfs
  | .ok w => w
  | .error _ => emptyVfs

/-- `createFile "/App.jsx" "x"` applied to the empty tree. -/
def c1demo : Vfs := resVfs (createFile "/App.jsx" "x" emptyVfs)

/-- `createFile "/a/b/c.txt" "x"` applied to the empty tree. -/
def c2demo : Vfs := resVfs (createFile "/a/b/c.txt" "x" emptyVfs)

/-- A tree holding `/a/x.txt`. -/
def c3demoA : Vfs := resVfs (createFile "/a/x.txt" "1" emptyVfs)

/-- A tree holding `/a/x.txt` and `/b/x.txt`. -/
def c3demoB : Vfs := resVfs (createFile "/b/x.txt" "2" c3demoA)

/-- A tree holding a single file `/f.txt` with content `"ab ab"`. -/
def c4demo : Vfs := resVfs (createFile "/f.txt" "ab ab" emptyVfs)

/-- A tree whose only file is `/index.tsx`. -/
def c7demo : Vfs := resVfs (createFile "/index.tsx" "" emptyVfs)

inductive ToolCall where
  | view (path : String)
  | create (path content : String)
  | replace (path oldText newText : String)
  | insert (path : String) (line : Nat) (text : String)
  | rename (src dst : String)
  | delete (path : String)
deriving DecidableEq

/-- Whether a command is a mutating one (everything except `view`). -/
def ToolCall.mutating : ToolCall → Bool
  | .view _ => false
  | _ => true

/-- Catch a mutator outcome: on success the new tree, on error a structured
error result and the untouched tree. -/
def applyMut : Except VfsError Vfs → Vfs → Except VfsError String × Vfs
  | .ok v', _ => (.ok "ok", v')
  | .error e, v => (.error e, v)

/-- Modelled from the spec: apply one structured command to the shared
tree, returning a structured outcome. -/
def execTool (tc : ToolCall) (v : Vfs) : Except VfsError String × Vfs :=
  match tc with
  | .view raw =>
      match readFile raw v with
      | .ok c => (.ok c, v)
      | .error e => (.error e, v)
  | .create raw content => applyMut (createFile raw content v) v
  | .replace raw oldText newText => applyMut (replaceInFile raw oldText newText v) v
  | .insert raw ln text => applyMut (insertAt raw ln text v) v
  | .rename src dst => applyMut (renameNode src dst v) v
  | .delete raw => applyMut (deleteNode raw v) v

/-- One turn from the model collaborator. -/
structure Turn where
  text : String
  toolCalls : List ToolCall

/-- Terminal states of a run. -/
inductive RunState where
  | done
  | aborted
deriving DecidableEq

/-- The outcome of a run: terminal state, number of request/execute rounds,
final tree, transcript, and the persisted snapshot (`none` when the run
aborted before persisting). -/
structure RunResult where
  state : RunState
  rounds : Nat
  vfs : Vfs
  transcript : List (Turn × List (Except VfsError String))
  snapshot : Option (List (String × FileNode))

/-- Apply every tool call of a turn sequentially, in emission order. -/
def execTurn (tcs : List ToolCall) (v : Vfs) :
    List (Except VfsError String) × Vfs :=
  match tcs with
  | [] => ([], v)
  | tc :: rest =>
      match execTool tc v with
      | (r, v1) =>
          match execTurn rest v1 with
          | (rs, v2) => (r :: rs, v2)

/-- Modelled from the spec: the bounded request/execute loop.  `fuel` is
the remaining step budget, `i` the number of completed rounds.  A `none`
turn is a transport failure and aborts with nothing persisted; a turn with
no tool calls, or an exhausted budget, ends the run in `Done` and persists
the serialized snapshot. -/
def runLoopAux (model : Nat → Option Turn) :
    Nat → Nat → Vfs → List (Turn × List (Except VfsError String)) → RunResult
  | 0, i, v, tr => ⟨.done, i, v, tr, some (serialize v)⟩
  | fuel + 1, i, v, tr =>
      match model i with
      | none => ⟨.aborted, i, v, tr, none⟩
      | some turn =>
          if turn.toolCalls.isEmpty then
            ⟨.done, i, v, tr ++ [(turn, [])], some (serialize v)⟩
          else
            match execTurn turn.toolCalls v with
            | (rs, v') => runLoopAux model fuel (i + 1) v' (tr ++ [(turn, rs)])

/-- Modelled from the spec: run the loop against a model collaborator with
the given step budget, starting from a deserialized tree. -/
def runLoop (model : Nat → Option Turn) (budget : Nat) (v : Vfs) : RunResult :=
  runLoopAux model budget 0 v []

end VfsModel

namespace HookModel

/-- The inputs that `main` would consult, were its body reachable: the
tool-input file path, whether that path resolves under the reviewed
queries directory, whether the review query produced a successful result
message, and whether that result contains "Changes look appropriate". -/
structure HookInput where
  filePath : Option String
  underReviewDir : Bool
  reviewSucceeded : Bool
  reviewSaysAppropriate : Bool

/-- `process.exit(code)`: abandon the rest of the body with this code. -/
def exitWith (code : Nat) : Except Nat Unit := .error code

/-- The body of `main` in `hooks/query_hook.js`, statement by statement.
`process.exit(0)` on line 9 is its first statement. -/
def mainBody (input : HookInput) : Except Nat Unit := do
  exitWith 0
  -- everything below mirrors lines 10-81 of the script
  match input.filePath with
  | none => exitWith 0
  | some _ => pure ()
  if ¬ input.underReviewDir then exitWith 0
  if ¬ input.reviewSucceeded then exitWith 0
  if input.reviewSaysAppropriate then exitWith 0
  -- the blocking branch: `console.error(...); process.exit(2)`
  exitWith 2

/-- The exit code of one run of the hook on the given input. -/
def hookExitCode (input : HookInput) : Nat :=
  match mainBody input with
  | .error code => code
  | .ok _ => 0

end HookModel

namespace OrdersModel

structure CustomerRow where
  customer_id : Nat
  email : String
deriving DecidableEq

structure OrderRow where
  order_id : Nat
  customer_id : Nat
  order_date : String
  status : String
  total_amount : Int
  shipping_address : String
  shipping_city : String
  shipping_state : String
  shipping_zip : String
deriving DecidableEq

structure OrderItemRow where
  order_item_id : Nat
  order_id : Nat
  product_id : Nat
  quantity : Nat
  price_at_time : Int
deriving DecidableEq

structure ProductRow where
  product_id : Nat
  name : String
deriving DecidableEq

/-- The tables touched by the query. -/
structure Db where
  orders : List OrderRow
  customers : List CustomerRow
  order_items : List OrderItemRow
  products : List ProductRow

/-- One row of the join result, with the selected columns. -/
structure JoinedRow where
  order_id : Nat
  order_date : String
  status : String
  total_amount : Int
  customer_email : String
  shipping_address : String
  shipping_city : String
  shipping_state : String
  shipping_zip : String
  order_item_id : Nat
  product_id : Nat
  product_name : String
  quantity : Nat
  price_at_time : Int
deriving DecidableEq

/-- The SQL query of `getOrderDetails`: inner joins of `orders` with
`customers`, `order_items` and `products`, restricted to the order id. -/
def orderDetailsQuery (db : Db) (orderId : Nat) : List JoinedRow :=
  (db.orders.filter (fun o => o.order_id = orderId)).flatMap (fun o =>
    (db.customers.filter (fun c => c.customer_id = o.customer_id)).flatMap (fun c =>
      (db.order_items.filter (fun oi => oi.order_id = o.order_id)).flatMap (fun oi =>
        (db.products.filter (fun pr => pr.product_id = oi.product_id)).map (fun pr =>
          { order_id := o.order_id
            order_date := o.order_date
            status := o.status
            total_amount := o.total_amount
            customer_email := c.email
            shipping_address := o.shipping_address
            shipping_city := o.shipping_city
            shipping_state := o.shipping_state
            shipping_zip := o.shipping_zip
            order_item_id := oi.order_item_id
            product_id := oi.product_id
            product_name := pr.name
            quantity := oi.quantity
            price_at_time := oi.price_at_time }))))

structure OrderItem where
  order_item_id : Nat
  product_id : Nat
  product_name : String
  quantity : Nat
  price_at_time : Int
deriving DecidableEq

structure OrderDetails where
  order_id : Nat
  order_date : String
  status : String
  total_amount : Int
  customer_email : String
  shipping_address : String
  shipping_city : String
  shipping_state : String
  shipping_zip : String
  items : List OrderItem
deriving DecidableEq

/-- The per-row item pushed into `order.items`. -/
def rowItem (r : JoinedRow) : OrderItem :=
  { order_item_id := r.order_item_id
    product_id := r.product_id
    product_name := r.product_name
    quantity := r.quantity
    price_at_time := r.price_at_time }

/-- `getOrderDetails(db, orderId)`: `null` when the query yields no rows;
otherwise the header fields of the first row plus one item per row. -/
def getOrderDetails (db : Db) (orderId : Nat) : Option OrderDetails :=
  match orderDetailsQuery db orderId with
  | [] => none
  | r :: rest =>
      some
        { order_id := r.order_id
          order_date := r.order_date
          status := r.status
          total_amount := r.total_amount
          customer_email := r.customer_email
          shipping_address := r.shipping_address
          shipping_city := r.shipping_city
          shipping_state := r.shipping_state
          shipping_zip := r.shipping_zip
          items := (r :: rest).map rowItem }

end OrdersModel

namespace PromoModel

/-- The `PromoEligibility` interface: only `eligibility_status` is
mandatory, everything else optional. -/
structure PromoEligibility where
  promotion_id : Option Nat := none
  code : Option String := none
  description : Option String := none
  discount_percentage : Option Int := none
  discount_amount : Option Int := none
  min_order_value : Option Int := none
  start_date : Option String := none
  end_date : Option String := none
  max_uses : Option Nat := none
  current_uses : Option Nat := none
  max_uses_per_customer : Option Nat := none
  is_active : Option Nat := none
  eligibility_status : String
  customer_use_count : Option Nat := none
  total_orders : Option Nat := none
  lifetime_value : Option Int := none
  avg_order_value : Option Int := none
  last_order_date : Option String := none
  current_cart_value : Option Int := none
  cart_item_count : Option Nat := none
  past_promotions : Option String := none
  promo_code : Option String := none
deriving DecidableEq

/-- `checkPromoEligibility(db, customerId, promoCode)`, parameterized over
the row produced by `db.get` for its eligibility query (`undefined`
becoming `none`). -/
def checkPromoEligibility (dbRow : Option PromoEligibility)
    (promoCode : String) : PromoEligibility :=
  match dbRow with
  | some row => row
  | none =>
      { eligibility_status := "Invalid promotion code"
        promo_code := some promoCode }

end PromoModel

-- Theorems

namespace VfsModel

/-- Case analysis for the head comparison used by the lexicographic orders. -/
theorem ite3_true_iff {c d : Prop} [Decidable c] [Decidable d] {r : Bool} :
    (if c then true else if d then false else r) = true ↔
      c ∨ (¬ c ∧ ¬ d ∧ r = true) := by
  by_cases hc : c
  · simp [hc]
  · by_cases hd : d <;> simp [hc, hd]

theorem ite3_false_iff {c d : Prop} [Decidable c] [Decidable d] {r : Bool} :
    (if c then true else if d then false else r) = false ↔
      ¬ c ∧ (d ∨ r = false) := by
  by_cases hc : c
  · simp [hc]
  · by_cases hd : d <;> simp [hc, hd]

theorem charListLt_cons_iff {x y : Char} {as bs : List Char} :
    charListLt (x :: as) (y :: bs) = true ↔
      x < y ∨ (¬ x < y ∧ ¬ y < x ∧ charListLt as bs = true) := by
  simp only [charListLt]; exact ite3_true_iff

theorem charListLt_irrefl (l : List Char) : charListLt l l = false := by
  induction l with
  | nil => rfl
  | cons a as ih => simp [charListLt, ih]

theorem charListLt_trans {a b c : List Char} (h1 : charListLt a b = true)
    (h2 : charListLt b c = true) : charListLt a c = true := by
  induction a generalizing b c with
  | nil =>
    cases b with
    | nil => simp [charListLt] at h1
    | cons y bs =>
      cases c with
      | nil => simp [charListLt] at h2
      | cons z cs => rfl
  | cons x as ih =>
    cases b with
    | nil => simp [charListLt] at h1
    | cons y bs =>
      cases c with
      | nil => simp [charListLt] at h2
      | cons z cs =>
        rw [charListLt_cons_iff] at h1 h2 ⊢
        rcases h1 with hxy | ⟨hxy, hyx, hr1⟩
        · rcases h2 with hyz | ⟨hyz, hzy, _⟩
          · exact Or.inl (lt_trans hxy hyz)
          · have : y = z := le_antisymm (not_lt.mp hzy) (not_lt.mp hyz)
            exact Or.inl (this ▸ hxy)
        · have hxyeq : x = y := le_antisymm (not_lt.mp hyx) (not_lt.mp hxy)
          subst hxyeq
          rcases h2 with hyz | ⟨hyz, hzy, hr2⟩
          · exact Or.inl hyz
          · exact Or.inr ⟨hyz, hzy, ih hr1 hr2⟩

theorem charListLt_eq_of_not {a b : List Char} (h1 : charListLt a b = false)
    (h2 : charListLt b a = false) : a = b := by
  induction a generalizing b with
  | nil =>
    cases b with
    | nil => rfl
    | cons y bs => simp [charListLt] at h1
  | cons x as ih =>
    cases b with
    | nil => simp [charListLt] at h2
    | cons y bs =>
      simp only [charListLt] at h1 h2
      rw [ite3_false_iff] at h1 h2
      rcases h1 with ⟨hxy, h1⟩
      rcases h2 with ⟨hyx, h2⟩
      have hxyeq : x = y := le_antisymm (not_lt.mp hyx) (not_lt.mp hxy)
      subst hxyeq
      rcases h1 with h | h1
      · exact absurd h hxy
      · rcases h2 with h | h2
        · exact absurd h hyx
        · exact congrArg (x :: ·) (ih h1 h2)

theorem charListLt_asymm {a b : List Char} (h : charListLt a b = true) :
    charListLt b a = false := by
  by_contra hc
  have hba : charListLt b a = true := by
    cases hcb : charListLt b a with
    | true => rfl
    | false => exact absurd hcb hc
  have := charListLt_trans h hba
  rw [charListLt_irrefl] at this
  exact Bool.false_ne_true this

theorem strLt_irrefl (s : String) : strLt s s = false :=
  charListLt_irrefl s.data

theorem strLt_trans {a b c : String} (h1 : strLt a b = true)
    (h2 : strLt b c = true) : strLt a c = true :=
  charListLt_trans h1 h2

theorem strLt_asymm {a b : String} (h : strLt a b = true) :
    strLt b a = false :=
  charListLt_asymm h

theorem strLt_eq_of_not {a b : String} (h1 : strLt a b = false)
    (h2 : strLt b a = false) : a = b := by
  cases a with
  | mk da =>
    cases b with
    | mk db => exact congrArg String.mk (charListLt_eq_of_not h1 h2)

theorem pathLt_cons_iff {x y : String} {as bs : Path} :
    pathLt (x :: as) (y :: bs) = true ↔
      strLt x y = true ∨
        (¬ strLt x y = true ∧ ¬ strLt y x = true ∧ pathLt as bs = true) := by
  simp only [pathLt]; exact ite3_true_iff

theorem pathLt_irrefl (p : Path) : pathLt p p = false := by
  induction p with
  | nil => rfl
  | cons a as ih => simp [pathLt, strLt_irrefl, ih]

theorem pathLt_trans {a b c : Path} (h1 : pathLt a b = true)
    (h2 : pathLt b c = true) : pathLt a c = true := by
  induction a generalizing b c with
  | nil =>
    cases b with
    | nil => simp [pathLt] at h1
    | cons y bs =>
      cases c with
      | nil => simp [pathLt] at h2
      | cons z cs => rfl
  | cons x as ih =>
    cases b with
    | nil => simp [pathLt] at h1
    | cons y bs =>
      cases c with
      | nil => simp [pathLt] at h2
      | cons z cs =>
        rw [pathLt_cons_iff] at h1 h2 ⊢
        rcases h1 with hxy | ⟨hxy, hyx, hr1⟩
        · rcases h2 with hyz | ⟨hyz, hzy, _⟩
          · exact Or.inl (strLt_trans hxy hyz)
          · have hyz' : strLt y z = false := by
              cases h : strLt y z with
              | true => exact absurd h hyz
              | false => rfl
            have hzy' : strLt z y = false := by
              cases h : strLt z y with
              | true => exact absurd h hzy
              | false => rfl
            have : y = z := strLt_eq_of_not hyz' hzy'
            exact Or.inl (this ▸ hxy)
        · have hxy' : strLt x y = false := by
            cases h : strLt x y with
            | true => exact absurd h hxy
            | false => rfl
          have hyx' : strLt y x = false := by
            cases h : strLt y x with
            | true => exact absurd h hyx
            | false => rfl
          have hxyeq : x = y := strLt_eq_of_not hxy' hyx'
          subst hxyeq
          rcases h2 with hyz | ⟨hyz, hzy, hr2⟩
          · exact Or.inl hyz
          · exact Or.inr ⟨hyz, hzy, ih hr1 hr2⟩

theorem pathLt_eq_of_not {a b : Path} (h1 : pathLt a b = false)
    (h2 : pathLt b a = false) : a = b := by
  induction a generalizing b with
  | nil =>
    cases b with
    | nil => rfl
    | cons y bs => simp [pathLt] at h1
  | cons x as ih =>
    cases b with
    | nil => simp [pathLt] at h2
    | cons y bs =>
      simp only [pathLt] at h1 h2
      rw [ite3_false_iff] at h1 h2
      rcases h1 with ⟨hxy, h1⟩
      rcases h2 with ⟨hyx, h2⟩
      have hxy' : strLt x y = false := by
        cases h : strLt x y with
        | true => exact absurd h hxy
        | false => rfl
      have hyx' : strLt y x = false := by
        cases h : strLt y x with
        | true => exact absurd h hyx
        | false => rfl
      have hxyeq : x = y := strLt_eq_of_not hxy' hyx'
      subst hxyeq
      rcases h1 with h | h1
      · exact absurd h hxy
      · rcases h2 with h | h2
        · exact absurd h hyx
        · exact congrArg (x :: ·) (ih h1 h2)

theorem pathLt_asymm {a b : Path} (h : pathLt a b = true) :
    pathLt b a = false := by
  by_contra hc
  have hba : pathLt b a = true := by
    cases hcb : pathLt b a with
    | true => rfl
    | false => exact absurd hcb hc
  have := pathLt_trans h hba
  rw [pathLt_irrefl] at this
  exact Bool.false_ne_true this

theorem isPrefixB_iff {p q : Path} : isPrefixB p q = true ↔ p <+: q := by
  induction p generalizing q with
  | nil => simp [isPrefixB]
  | cons a as ih =>
    cases q with
    | nil =>
      simp only [isPrefixB, Bool.false_eq_true, false_iff]
      intro h
      exact absurd (List.IsPrefix.length_le h) (by simp)
    | cons b bs =>
      by_cases hab : a = b
      · subst hab
        simp [isPrefixB, ih, List.cons_prefix_cons]
      · simp [isPrefixB, hab, List.cons_prefix_cons]

theorem pathLt_of_prefix_ne {p q : Path} (h : p <+: q) (hne : p ≠ q) :
    pathLt p q = true := by
  induction p generalizing q with
  | nil =>
    cases q with
    | nil => exact absurd rfl hne
    | cons b bs => rfl
  | cons a as ih =>
    cases q with
    | nil => simp [List.prefix_nil] at h
    | cons b bs =>
      rw [List.cons_prefix_cons] at h
      rcases h with ⟨hab, h'⟩
      subst hab
      have hne' : as ≠ bs := fun he => hne (by rw [he])
      simp [pathLt, strLt_irrefl, ih h' hne']

theorem mk_data (s : String) : String.mk s.data = s := by cases s; rfl

theorem splitCharAux_cons_sep (sep : Char) (cur l : List Char) :
    splitCharAux sep cur (sep :: l) = cur.reverse :: splitCharAux sep [] l := by
  simp [splitCharAux]

theorem splitCharAux_cons_ne {sep c : Char} (h : ¬ c = sep)
    (cur l : List Char) :
    splitCharAux sep cur (c :: l) = splitCharAux sep (c :: cur) l := by
  simp [splitCharAux, h]

theorem splitCharAux_no_sep {sep : Char} {cs : List Char} (h : sep ∉ cs)
    (cur l : List Char) :
    splitCharAux sep cur (cs ++ l) = splitCharAux sep (cs.reverse ++ cur) l := by
  induction cs generalizing cur with
  | nil => simp
  | cons c cs ih =>
    have hc : ¬ c = sep := fun he => h (he ▸ List.mem_cons_self c cs)
    have h' : sep ∉ cs := fun hm => h (List.mem_cons_of_mem c hm)
    rw [List.cons_append, splitCharAux_cons_ne hc]
    rw [show splitCharAux sep (c :: cur) (cs ++ l) =
          splitCharAux sep (cs.reverse ++ (c :: cur)) l from ih h' (c :: cur)]
    simp

theorem segsChars_split {p : Path} (hv : ∀ s ∈ p, '/' ∉ s.data)
    (cur : List Char) :
    splitCharAux '/' cur (segsChars p) = cur.reverse :: p.map String.data := by
  induction p generalizing cur with
  | nil => simp [segsChars, splitCharAux]
  | cons s rest ih =>
    have hs : '/' ∉ s.data := hv s (List.mem_cons_self s rest)
    have hrest : ∀ t ∈ rest, '/' ∉ t.data :=
      fun t ht => hv t (List.mem_cons_of_mem s ht)
    show splitCharAux '/' cur ('/' :: (s.data ++ segsChars rest)) = _
    rw [splitCharAux_cons_sep]
    rw [show splitCharAux '/' [] (s.data ++ segsChars rest) =
          splitCharAux '/' (s.data.reverse ++ []) (segsChars rest) from
        splitCharAux_no_sep hs [] _]
    rw [show splitCharAux '/' (s.data.reverse ++ []) (segsChars rest) =
          (s.data.reverse ++ []).reverse :: rest.map String.data from
        ih hrest _]
    simp

theorem resolveDots_no_dots {p : Path}
    (h : ∀ s ∈ p, s ≠ "." ∧ s ≠ "..") (acc : List String) :
    resolveDots acc p = some (acc.reverse ++ p) := by
  induction p generalizing acc with
  | nil => simp [resolveDots]
  | cons s rest ih =>
    have hs := h s (List.mem_cons_self s rest)
    have hrest : ∀ t ∈ rest, t ≠ "." ∧ t ≠ ".." :=
      fun t ht => h t (List.mem_cons_of_mem s ht)
    simp only [resolveDots, if_neg hs.1, if_neg hs.2]
    rw [ih hrest]
    simp

/-- Normalization is a left inverse of rendering on valid paths: the basis
of the serializer round-trip. -/
theorem normalize_pathToString {p : Path} (hv : ∀ s ∈ p, validSeg s) :
    normalize (pathToString p) = .ok p := by
  cases p with
  | nil => rfl
  | cons s rest =>
    have hslash : ∀ t ∈ s :: rest, '/' ∉ t.data := fun t ht => (hv t ht).2.2.2
    have hsegs : segmentsOf (pathToString (s :: rest)) = s :: rest := by
      unfold segmentsOf pathToString splitChar
      show ((splitCharAux '/' [] (segsChars (s :: rest))).map String.mk).filter _ = _
      rw [segsChars_split hslash]
      have hmap : (s :: rest).map (fun t => String.mk t.data) = s :: rest := by
        have : (fun t => String.mk t.data) = id := funext mk_data
        rw [this, List.map_id]
      simp only [List.map_cons, List.reverse_nil, List.map_map]
      show (("" : String) :: (s :: rest).map (fun t => String.mk t.data)).filter _ = _
      rw [hmap]
      rw [List.filter_cons_of_neg (by simp)]
      rw [List.filter_eq_self.mpr]
      intro a ha
      simpa using (hv a ha).1
    unfold normalize
    rw [hsegs, resolveDots_no_dots (fun t ht => ⟨(hv t ht).2.1, (hv t ht).2.2.1⟩)]
    simp

theorem mem_splitCharAux {sep : Char} {cur l : List Char} {x : List Char}
    (hcur : sep ∉ cur) (hx : x ∈ splitCharAux sep cur l) : sep ∉ x := by
  induction l generalizing cur with
  | nil =>
    simp only [splitCharAux, List.mem_singleton] at hx
    subst hx
    simpa using hcur
  | cons c rest ih =>
    simp only [splitCharAux] at hx
    by_cases hc : c = sep
    · rw [if_pos hc] at hx
      rcases List.mem_cons.mp hx with h | h
      · subst h; simpa using hcur
      · exact ih (by simp) h
    · rw [if_neg hc] at hx
      have hcur' : sep ∉ c :: cur := by
        simp only [List.mem_cons, not_or]
        exact ⟨fun he => hc he.symm, hcur⟩
      exact ih hcur' hx

theorem resolveDots_mem {p out : Path} {acc : List String}
    (h : resolveDots acc p = some out) :
    ∀ s ∈ out, s ∈ acc ∨ (s ∈ p ∧ s ≠ "." ∧ s ≠ "..") := by
  induction p generalizing acc with
  | nil =>
    simp only [resolveDots, Option.some.injEq] at h
    subst h
    intro s hs
    exact Or.inl (by simpa using hs)
  | cons t rest ih =>
    simp only [resolveDots] at h
    by_cases ht : t = "."
    · rw [if_pos ht] at h
      intro s hs
      rcases ih h s hs with h' | h'
      · exact Or.inl h'
      · exact Or.inr ⟨List.mem_cons_of_mem t h'.1, h'.2⟩
    · rw [if_neg ht] at h
      by_cases ht2 : t = ".."
      · rw [if_pos ht2] at h
        cases acc with
        | nil => simp at h
        | cons a acc' =>
          intro s hs
          rcases ih h s hs with h' | h'
          · exact Or.inl (List.mem_cons_of_mem a h')
          · exact Or.inr ⟨List.mem_cons_of_mem t h'.1, h'.2⟩
      · rw [if_neg ht2] at h
        intro s hs
        rcases ih h s hs with h' | h'
        · rcases List.mem_cons.mp h' with h'' | h''
          · exact Or.inr ⟨h'' ▸ List.mem_cons_self t rest, h'' ▸ ⟨ht, ht2⟩⟩
          · exact Or.inl h''
        · exact Or.inr ⟨List.mem_cons_of_mem t h'.1, h'.2⟩

/-- Every segment produced by the normalizer is a valid segment. -/
theorem normalize_validSeg {raw : String} {p : Path}
    (h : normalize raw = .ok p) : ∀ s ∈ p, validSeg s := by
  unfold normalize at h
  cases hres : resolveDots [] (segmentsOf raw) with
  | none => rw [hres] at h; exact absurd h (by simp)
  | some q =>
    rw [hres] at h
    have hpq : q = p := by simpa using h
    subst hpq
    intro s hs
    rcases resolveDots_mem hres s hs with h' | h'
    · simp at h'
    · rcases h' with ⟨hmem, hdot, hdots⟩
      have hne : s ≠ "" := by
        have := List.of_mem_filter hmem
        simpa using this
      have hmem' : s ∈ (splitChar '/' raw.data).map String.mk :=
        List.mem_of_mem_filter hmem
      rcases List.mem_map.mp hmem' with ⟨cs, hcs, hmk⟩
      have hnosl : '/' ∉ cs := mem_splitCharAux (by simp) hcs
      refine ⟨hne, hdot, hdots, ?_⟩
      rw [← hmk]
      exact hnosl

theorem lookupL_eq_none_iff {ns : List (Path × FileNode)} {p : Path} :
    lookupL ns p = none ↔ p ∉ ns.map Prod.fst := by
  induction ns with
  | nil => simp [lookupL]
  | cons e rest ih =>
    by_cases he : e.1 = p
    · rw [lookupL, if_pos he]
      simp only [List.map_cons]
      constructor
      · intro hc; cases hc
      · intro hc
        have hp : p ∈ e.1 :: List.map Prod.fst rest := by
          rw [he]; exact List.mem_cons_self _ _
        exact absurd hp hc
    · rw [lookupL, if_neg he, ih]
      simp only [List.map_cons, List.mem_cons, not_or]
      constructor
      · intro h; exact ⟨fun hc => he hc.symm, h⟩
      · intro h; exact h.2

theorem lookupL_mem {ns : List (Path × FileNode)} {p : Path} {n : FileNode}
    (h : lookupL ns p = some n) : (p, n) ∈ ns := by
  induction ns with
  | nil => simp [lookupL] at h
  | cons e rest ih =>
    by_cases he : e.1 = p
    · rw [lookupL, if_pos he] at h
      cases e with
      | mk q m =>
        have hq : q = p := he
        have hm : m = n := by simpa using h
        subst hq; subst hm
        exact List.mem_cons_self _ rest
    · rw [lookupL, if_neg he] at h
      exact List.mem_cons_of_mem e (ih h)

theorem mem_lookupL {ns : List (Path × FileNode)} {p : Path} {n : FileNode}
    (hnd : (ns.map Prod.fst).Nodup) (h : (p, n) ∈ ns) :
    lookupL ns p = some n := by
  induction ns with
  | nil => simp at h
  | cons e rest ih =>
    rcases List.mem_cons.mp h with he | hmem
    · rw [← he]; simp [lookupL]
    · have hne : e.1 ≠ p := by
        intro hc
        have : p ∈ rest.map Prod.fst := List.mem_map.mpr ⟨(p, n), hmem, rfl⟩
        rw [List.map_cons] at hnd
        exact (List.nodup_cons.mp hnd).1 (hc ▸ this)
      rw [lookupL, if_neg hne]
      exact ih (List.nodup_cons.mp (List.map_cons Prod.fst e rest ▸ hnd)).2 hmem

theorem sortedNodes_nodupKeys {ns : List (Path × FileNode)}
    (hs : SortedNodes ns) : (ns.map Prod.fst).Nodup := by
  induction ns with
  | nil => simp
  | cons e rest ih =>
    rcases List.pairwise_cons.mp hs with ⟨he, hrest⟩
    rw [List.map_cons, List.nodup_cons]
    refine ⟨?_, ih hrest⟩
    intro hc
    rcases List.mem_map.mp hc with ⟨b, hb, hbe⟩
    have := he b hb
    rw [hbe, pathLt_irrefl] at this
    exact Bool.false_ne_true this

theorem mem_insertNode {ns : List (Path × FileNode)} {p : Path}
    {n : FileNode} {x : Path × FileNode} (h : x ∈ insertNode ns p n) :
    x = (p, n) ∨ x ∈ ns := by
  induction ns with
  | nil => simpa [insertNode] using h
  | cons e rest ih =>
    simp only [insertNode] at h
    by_cases he : e.1 = p
    · rw [if_pos he] at h
      rcases List.mem_cons.mp h with h' | h'
      · exact Or.inl h'
      · exact Or.inr (List.mem_cons_of_mem e h')
    · rw [if_neg he] at h
      by_cases hlt : pathLt p e.1 = true
      · rw [if_pos hlt] at h
        rcases List.mem_cons.mp h with h' | h'
        · exact Or.inl h'
        · exact Or.inr h'
      · rw [if_neg hlt] at h
        rcases List.mem_cons.mp h with h' | h'
        · exact Or.inr (h' ▸ List.mem_cons_self e rest)
        · rcases ih h' with h'' | h''
          · exact Or.inl h''
          · exact Or.inr (List.mem_cons_of_mem e h'')

theorem lookupL_insertNode_self (ns : List (Path × FileNode)) (p : Path)
    (n : FileNode) : lookupL (insertNode ns p n) p = some n := by
  induction ns with
  | nil => simp [insertNode, lookupL]
  | cons e rest ih =>
    simp only [insertNode]
    by_cases he : e.1 = p
    · rw [if_pos he]; simp [lookupL]
    · rw [if_neg he]
      by_cases hlt : pathLt p e.1 = true
      · rw [if_pos hlt]; simp [lookupL]
      · rw [if_neg hlt]
        rw [lookupL, if_neg he]
        exact ih

theorem lookupL_insertNode_ne {ns : List (Path × FileNode)} {p q : Path}
    {n : FileNode} (h : q ≠ p) :
    lookupL (insertNode ns p n) q = lookupL ns q := by
  induction ns with
  | nil =>
    have h1 : ¬ p = q := fun hc => h hc.symm
    simp [insertNode, lookupL, h1]
  | cons e rest ih =>
    simp only [insertNode]
    by_cases he : e.1 = p
    · rw [if_pos he]
      have h1 : ¬ p = q := fun hc => h hc.symm
      have h2 : ¬ e.1 = q := he ▸ h1
      rw [lookupL, if_neg h1, lookupL, if_neg h2]
    · rw [if_neg he]
      by_cases hlt : pathLt p e.1 = true
      · rw [if_pos hlt]
        rw [lookupL, if_neg (fun hc : p = q => h hc.symm)]
      · rw [if_neg hlt]
        by_cases heq : e.1 = q
        · rw [lookupL, if_pos heq, lookupL, if_pos heq]
        · rw [lookupL, if_neg heq, lookupL, if_neg heq]
          exact ih

theorem insertNode_sorted {ns : List (Path × FileNode)} {p : Path}
    {n : FileNode} (hs : SortedNodes ns) : SortedNodes (insertNode ns p n) := by
  induction ns with
  | nil => simp [insertNode, SortedNodes]
  | cons e rest ih =>
    rcases List.pairwise_cons.mp hs with ⟨he, hrest⟩
    simp only [insertNode]
    by_cases heq : e.1 = p
    · rw [if_pos heq]
      exact List.pairwise_cons.mpr ⟨fun b hb => heq ▸ he b hb, hrest⟩
    · rw [if_neg heq]
      by_cases hlt : pathLt p e.1 = true
      · rw [if_pos hlt]
        refine List.pairwise_cons.mpr ⟨?_, hs⟩
        intro b hb
        rcases List.mem_cons.mp hb with h | h
        · exact h ▸ hlt
        · exact pathLt_trans hlt (he b h)
      · rw [if_neg hlt]
        refine List.pairwise_cons.mpr ⟨?_, ih hrest⟩
        intro b hb
        rcases mem_insertNode hb with h | h
        · subst h
          have hplt : pathLt p e.1 = false := by
            cases hc : pathLt p e.1 with
            | true => exact absurd hc hlt
            | false => rfl
          cases hc : pathLt e.1 p with
          | true => rfl
          | false => exact absurd (pathLt_eq_of_not hc hplt) heq
        · exact he b h

theorem insertNode_append_of_gt {ns : List (Path × FileNode)} {p : Path}
    {n : FileNode} (h : ∀ e ∈ ns, pathLt e.1 p = true) :
    insertNode ns p n = ns ++ [(p, n)] := by
  induction ns with
  | nil => simp [insertNode]
  | cons e rest ih =>
    have he := h e (List.mem_cons_self e rest)
    have hne : e.1 ≠ p := by
      intro hc
      rw [hc, pathLt_irrefl] at he
      exact Bool.false_ne_true he
    have hnlt : ¬ pathLt p e.1 = true := by
      rw [pathLt_asymm he]
      simp
    simp only [insertNode, if_neg hne, if_neg hnlt]
    rw [ih (fun b hb => h b (List.mem_cons_of_mem e hb))]
    simp

theorem lookupL_append_some {l1 l2 : List (Path × FileNode)} {p : Path}
    {n : FileNode} (h : lookupL l1 p = some n) :
    lookupL (l1 ++ l2) p = some n := by
  induction l1 with
  | nil => simp [lookupL] at h
  | cons e rest ih =>
    by_cases he : e.1 = p
    · rw [lookupL, if_pos he] at h
      rw [List.cons_append, lookupL, if_pos he]
      exact h
    · rw [lookupL, if_neg he] at h
      rw [List.cons_append, lookupL, if_neg he]
      exact ih h

theorem lookupL_append_none {l1 l2 : List (Path × FileNode)} {p : Path}
    (h : lookupL l1 p = none) :
    lookupL (l1 ++ l2) p = lookupL l2 p := by
  induction l1 with
  | nil => simp
  | cons e rest ih =>
    by_cases he : e.1 = p
    · rw [lookupL, if_pos he] at h
      exact absurd h (by simp)
    · rw [lookupL, if_neg he] at h
      rw [List.cons_append, lookupL, if_neg he]
      exact ih h

theorem prefix_append_drop {p k : Path} (h : p <+: k) :
    p ++ k.drop p.length = k := by
  rcases h with ⟨r, rfl⟩
  simp

theorem mem_properPrefixes {p q : Path} :
    q ∈ properPrefixes p ↔ ∃ i, i < p.length ∧ q = p.take i := by
  simp only [properPrefixes, List.mem_map, List.mem_range]
  constructor
  · rintro ⟨i, hi, rfl⟩; exact ⟨i, hi, rfl⟩
  · rintro ⟨i, hi, rfl⟩; exact ⟨i, hi, rfl⟩

theorem ensureList_sorted {ns ns' : List (Path × FileNode)} {l : List Path}
    (hs : SortedNodes ns) (h : ensureList ns l = .ok ns') : SortedNodes ns' := by
  induction l generalizing ns with
  | nil =>
    simp only [ensureList, Except.ok.injEq] at h
    exact h ▸ hs
  | cons q qs ih =>
    simp only [ensureList] at h
    split at h
    · split at h
      · exact ih hs h
      · exact absurd h (by simp)
    · exact ih (insertNode_sorted hs) h

theorem ensureList_preserves_some {ns ns' : List (Path × FileNode)}
    {l : List Path} {q : Path} {n : FileNode}
    (h : ensureList ns l = .ok ns') (hq : lookupL ns q = some n) :
    lookupL ns' q = some n := by
  induction l generalizing ns with
  | nil =>
    simp only [ensureList, Except.ok.injEq] at h
    exact h ▸ hq
  | cons r rs ih =>
    simp only [ensureList] at h
    split at h
    · split at h
      · exact ih h hq
      · exact absurd h (by simp)
    · next hl =>
        have hne : q ≠ r := fun he => by rw [he, hl] at hq; cases hq
        exact ih h (by rw [lookupL_insertNode_ne hne]; exact hq)

theorem ensureList_lookup_notmem {ns ns' : List (Path × FileNode)}
    {l : List Path} {q : Path}
    (h : ensureList ns l = .ok ns') (hq : q ∉ l) :
    lookupL ns' q = lookupL ns q := by
  induction l generalizing ns with
  | nil =>
    simp only [ensureList, Except.ok.injEq] at h
    exact h ▸ rfl
  | cons r rs ih =>
    have hqr : q ≠ r := fun he => hq (he ▸ List.mem_cons_self r rs)
    have hqs : q ∉ rs := fun hm => hq (List.mem_cons_of_mem r hm)
    simp only [ensureList] at h
    split at h
    · split at h
      · exact ih h hqs
      · exact absurd h (by simp)
    · rw [ih h hqs, lookupL_insertNode_ne hqr]

theorem canonDirs_insert_file {ns : List (Path × FileNode)} {p : Path}
    {c : String} (hc : CanonDirs ns) :
    CanonDirs (insertNode ns p (fileNode c)) := by
  intro q n hq ht
  by_cases hqp : q = p
  · subst hqp
    rw [lookupL_insertNode_self] at hq
    cases hq
    cases ht
  · rw [lookupL_insertNode_ne hqp] at hq
    exact hc q n hq ht

theorem canonDirs_insert_dir {ns : List (Path × FileNode)} {p : Path}
    (hc : CanonDirs ns) : CanonDirs (insertNode ns p dirNode) := by
  intro q n hq ht
  by_cases hqp : q = p
  · subst hqp
    rw [lookupL_insertNode_self] at hq
    exact (Option.some.inj hq).symm
  · rw [lookupL_insertNode_ne hqp] at hq
    exact hc q n hq ht

theorem ensureList_canon {ns ns' : List (Path × FileNode)} {l : List Path}
    (hc : CanonDirs ns) (h : ensureList ns l = .ok ns') : CanonDirs ns' := by
  induction l generalizing ns with
  | nil =>
    simp only [ensureList, Except.ok.injEq] at h
    exact h ▸ hc
  | cons r rs ih =>
    simp only [ensureList] at h
    split at h
    · split at h
      · exact ih hc h
      · exact absurd h (by simp)
    · exact ih (canonDirs_insert_dir hc) h

theorem ensureList_ensures {ns ns' : List (Path × FileNode)} {l : List Path}
    (hc : CanonDirs ns) (h : ensureList ns l = .ok ns') :
    ∀ q ∈ l, lookupL ns' q = some dirNode := by
  induction l generalizing ns with
  | nil => intro q hq; simp at hq
  | cons r rs ih =>
    intro q hq
    simp only [ensureList] at h
    split at h
    · next m hl =>
        split at h
        · next ht =>
            rcases List.mem_cons.mp hq with he | hm
            · subst he
              have hm' : m = dirNode := hc q m hl ht
              exact ensureList_preserves_some h (hm' ▸ hl)
            · exact ih hc h q hm
        · exact absurd h (by simp)
    · rcases List.mem_cons.mp hq with he | hm
      · subst he
        exact ensureList_preserves_some h (lookupL_insertNode_self ns q dirNode)
      · exact ih (canonDirs_insert_dir hc) h q hm

theorem ensureList_lookup_source {ns ns' : List (Path × FileNode)}
    {l : List Path} {q : Path} {m : FileNode}
    (h : ensureList ns l = .ok ns') (hq : lookupL ns' q = some m) :
    lookupL ns q = some m ∨ (q ∈ l ∧ m = dirNode) := by
  induction l generalizing ns with
  | nil =>
    simp only [ensureList, Except.ok.injEq] at h
    exact Or.inl (h ▸ hq)
  | cons r rs ih =>
    simp only [ensureList] at h
    split at h
    · split at h
      · rcases ih h with h' | h'
        · exact Or.inl h'
        · exact Or.inr ⟨List.mem_cons_of_mem r h'.1, h'.2⟩
      · exact absurd h (by simp)
    · rcases ih h with h' | h'
      · by_cases hqr : q = r
        · subst hqr
          rw [lookupL_insertNode_self] at h'
          exact Or.inr ⟨List.mem_cons_self q rs, (Option.some.inj h').symm⟩
        · rw [lookupL_insertNode_ne hqr] at h'
          exact Or.inl h'
      · exact Or.inr ⟨List.mem_cons_of_mem r h'.1, h'.2⟩

theorem nodup_keys_filter {ns : List (Path × FileNode)}
    {f : Path × FileNode → Bool} (hnd : (ns.map Prod.fst).Nodup) :
    ((ns.filter f).map Prod.fst).Nodup :=
  hnd.sublist ((List.filter_sublist ns).map Prod.fst)

theorem lookupL_filter_some {ns : List (Path × FileNode)}
    {f : Path × FileNode → Bool} {q : Path} {n : FileNode}
    (hnd : (ns.map Prod.fst).Nodup) (hq : lookupL ns q = some n)
    (hf : f (q, n) = true) : lookupL (ns.filter f) q = some n :=
  mem_lookupL (nodup_keys_filter hnd) (List.mem_filter.mpr ⟨lookupL_mem hq, hf⟩)

theorem lookupL_filter_source {ns : List (Path × FileNode)}
    {f : Path × FileNode → Bool} {q : Path} {n : FileNode}
    (hnd : (ns.map Prod.fst).Nodup) (h : lookupL (ns.filter f) q = some n) :
    lookupL ns q = some n ∧ f (q, n) = true := by
  have hm := lookupL_mem h
  have hm' := List.mem_filter.mp hm
  exact ⟨mem_lookupL hnd hm'.1, hm'.2⟩

theorem lookupL_filter_none {ns : List (Path × FileNode)}
    {f : Path × FileNode → Bool} {q : Path} (hq : lookupL ns q = none) :
    lookupL (ns.filter f) q = none := by
  rw [lookupL_eq_none_iff] at hq ⊢
  intro hc
  rcases List.mem_map.mp hc with ⟨e, he, hee⟩
  exact hq (List.mem_map.mpr ⟨e, (List.filter_sublist ns).subset he, hee⟩)

theorem insertAll_sorted {l ns : List (Path × FileNode)}
    (hs : SortedNodes ns) : SortedNodes (insertAll ns l) := by
  induction l generalizing ns with
  | nil => exact hs
  | cons e tail ih => exact ih (insertNode_sorted hs)

theorem lookupL_insertAll_notmem {l ns : List (Path × FileNode)} {q : Path}
    (hq : ∀ e ∈ l, e.1 ≠ q) : lookupL (insertAll ns l) q = lookupL ns q := by
  induction l generalizing ns with
  | nil => rfl
  | cons e tail ih =>
    have hne : q ≠ e.1 := fun he => hq e (List.mem_cons_self e tail) he.symm
    rw [show insertAll ns (e :: tail) = insertAll (insertNode ns e.1 e.2) tail
        from rfl]
    rw [ih (fun b hb => hq b (List.mem_cons_of_mem e hb)),
      lookupL_insertNode_ne hne]

theorem lookupL_insertAll_mem {l ns : List (Path × FileNode)} {q : Path}
    {n : FileNode} (hnd : (l.map Prod.fst).Nodup) (hmem : (q, n) ∈ l) :
    lookupL (insertAll ns l) q = some n := by
  induction l generalizing ns with
  | nil => simp at hmem
  | cons e tail ih =>
    rw [List.map_cons, List.nodup_cons] at hnd
    rw [show insertAll ns (e :: tail) = insertAll (insertNode ns e.1 e.2) tail
        from rfl]
    rcases List.mem_cons.mp hmem with he | hm
    · subst he
      have hnotin : ∀ b ∈ tail, b.1 ≠ q := by
        intro b hb hc
        exact hnd.1 (hc ▸ List.mem_map.mpr ⟨b, hb, rfl⟩)
      rw [lookupL_insertAll_notmem hnotin]
      exact lookupL_insertNode_self ns q n
    · exact ih hnd.2 hm

theorem lookupL_insertAll_source {l ns : List (Path × FileNode)} {q : Path}
    {n : FileNode} (h : lookupL (insertAll ns l) q = some n) :
    (q, n) ∈ l ∨ lookupL ns q = some n := by
  induction l generalizing ns with
  | nil => exact Or.inr h
  | cons e tail ih =>
    rw [show insertAll ns (e :: tail) = insertAll (insertNode ns e.1 e.2) tail
        from rfl] at h
    rcases ih h with h' | h'
    · exact Or.inl (List.mem_cons_of_mem e h')
    · by_cases hq : q = e.1
      · subst hq
        rw [lookupL_insertNode_self] at h'
        cases h'
        exact Or.inl (by simp)
      · rw [lookupL_insertNode_ne hq] at h'
        exact Or.inr h'

theorem lookupL_empty (p : Path) :
    lookupL emptyVfs.nodes p = if [] = p then some dirNode else none := by
  by_cases h : ([] : Path) = p
  · simp [emptyVfs, lookupL, h]
  · simp [emptyVfs, lookupL, h]

theorem WFn_empty : WFn emptyVfs.nodes := by
  refine ⟨?_, ?_, ?_, ?_, ?_⟩
  · simp [emptyVfs, SortedNodes]
  · rfl
  · intro p n hp i hi
    rw [lookupL_empty] at hp
    by_cases h : ([] : Path) = p
    · subst h; simp at hi
    · rw [if_neg h] at hp; cases hp
  · intro p n hp _
    rw [lookupL_empty] at hp
    by_cases h : ([] : Path) = p
    · rw [if_pos h] at hp; exact (Option.some.inj hp).symm
    · rw [if_neg h] at hp; cases hp
  · intro p n hp s hs
    rw [lookupL_empty] at hp
    by_cases h : ([] : Path) = p
    · subst h; simp at hs
    · rw [if_neg h] at hp; cases hp

theorem take_ne_self_of_lt {p : Path} {i : Nat} (h : i < p.length) :
    p.take i ≠ p := by
  intro he
  have := congrArg List.length he
  rw [List.length_take] at this
  omega

/-- Overwriting an existing file preserves well-formedness. -/
theorem WFn_overwriteFile {ns : List (Path × FileNode)} {p : Path}
    {n : FileNode} {c : String} (hwf : WFn ns)
    (hl : lookupL ns p = some n) (ht : ¬ n.type = .directory) :
    WFn (insertNode ns p (fileNode c)) := by
  have hpne : p ≠ [] := by
    intro he
    rw [he, hwf.root] at hl
    exact ht (by rw [← Option.some.inj hl]; rfl)
  refine ⟨insertNode_sorted hwf.sorted, ?_, ?_, canonDirs_insert_file hwf.canon, ?_⟩
  · rw [lookupL_insertNode_ne (fun he => hpne he.symm)]
    exact hwf.root
  · intro q m hq i hi
    by_cases hqp : q = p
    · subst hqp
      rw [lookupL_insertNode_ne (take_ne_self_of_lt hi)]
      exact hwf.closed q n hl i hi
    · rw [lookupL_insertNode_ne hqp] at hq
      have hdir := hwf.closed q m hq i hi
      have hne : q.take i ≠ p := by
        intro he
        rw [he, hl] at hdir
        exact ht (by rw [Option.some.inj hdir]; rfl)
      rw [lookupL_insertNode_ne hne]
      exact hdir
  · intro q m hq s hs
    by_cases hqp : q = p
    · subst hqp
      exact hwf.valid q n hl s hs
    · rw [lookupL_insertNode_ne hqp] at hq
      exact hwf.valid q m hq s hs

theorem mem_take_subset {p : Path} {j : Nat} {s : String}
    (hs : s ∈ p.take j) : s ∈ p :=
  (List.take_sublist j p).subset hs

theorem takePref (n : Nat) (l : Path) : l.take n <+: l :=
  List.take_prefix n l

/-- Creating a new file (after materializing its ancestors) preserves
well-formedness. -/
theorem WFn_createNew {ns ns1 : List (Path × FileNode)} {p : Path}
    {c : String} (hwf : WFn ns) (hnone : lookupL ns p = none)
    (hens : ensureAncestors ns p = .ok ns1) (hval : ∀ s ∈ p, validSeg s) :
    WFn (insertNode ns1 p (fileNode c)) := by
  have hsorted1 : SortedNodes ns1 := ensureList_sorted hwf.sorted hens
  have hcanon1 : CanonDirs ns1 := ensureList_canon hwf.canon hens
  have hensures : ∀ q ∈ properPrefixes p, lookupL ns1 q = some dirNode :=
    ensureList_ensures hwf.canon hens
  have hpne : p ≠ [] := by
    intro he
    rw [he, hwf.root] at hnone
    cases hnone
  have hroot_pref : ([] : Path) ∈ properPrefixes p := by
    rw [mem_properPrefixes]
    exact ⟨0, by cases p with
      | nil => exact absurd rfl hpne
      | cons a as => simp, by simp⟩
  refine ⟨insertNode_sorted hsorted1, ?_, ?_, canonDirs_insert_file hcanon1, ?_⟩
  · rw [lookupL_insertNode_ne (fun he => hpne he.symm)]
    exact hensures [] hroot_pref
  · intro q m hq i hi
    by_cases hqp : q = p
    · subst hqp
      rw [lookupL_insertNode_ne (take_ne_self_of_lt hi)]
      exact hensures (q.take i) (mem_properPrefixes.mpr ⟨i, hi, rfl⟩)
    · rw [lookupL_insertNode_ne hqp] at hq
      rcases ensureList_lookup_source hens hq with hsrc | ⟨hmem, _⟩
      · have hdir := hwf.closed q m hsrc i hi
        have hne : q.take i ≠ p := by
          intro he
          rw [he, hnone] at hdir
          cases hdir
        rw [lookupL_insertNode_ne hne]
        exact ensureList_preserves_some hens hdir
      · rcases mem_properPrefixes.mp hmem with ⟨j, hj, hqj⟩
        subst hqj
        have hlen : i < j := by
          have := hi
          rw [List.length_take] at this
          omega
        have htk : (p.take j).take i = p.take i := by
          rw [List.take_take]
          congr 1
          omega
        rw [htk]
        have hne : p.take i ≠ p := take_ne_self_of_lt (by omega)
        rw [lookupL_insertNode_ne hne]
        exact hensures (p.take i) (mem_properPrefixes.mpr ⟨i, by omega, rfl⟩)
  · intro q m hq s hs
    by_cases hqp : q = p
    · subst hqp
      exact hval s hs
    · rw [lookupL_insertNode_ne hqp] at hq
      rcases ensureList_lookup_source hens hq with hsrc | ⟨hmem, _⟩
      · exact hwf.valid q m hsrc s hs
      · rcases mem_properPrefixes.mp hmem with ⟨j, hj, hqj⟩
        subst hqj
        exact hval s (mem_take_subset hs)

theorem isPrefixB_nil_right {p : Path} (h : p ≠ []) : isPrefixB p [] = false := by
  cases p with
  | nil => exact absurd rfl h
  | cons a as => rfl

/-- Recursive deletion of a non-root subtree preserves well-formedness. -/
theorem WFn_delete {ns : List (Path × FileNode)} {p : Path}
    (hwf : WFn ns) (hpne : p ≠ []) :
    WFn (ns.filter (fun e => ! isPrefixB p e.1)) := by
  have hnd := sortedNodes_nodupKeys hwf.sorted
  have hkeep : ∀ q m, lookupL ns q = some m → ¬ p <+: q →
      lookupL (ns.filter (fun e => ! isPrefixB p e.1)) q = some m := by
    intro q m hq hnp
    refine lookupL_filter_some hnd hq ?_
    have : isPrefixB p q = false := by
      cases hc : isPrefixB p q with
      | true => exact absurd (isPrefixB_iff.mp hc) hnp
      | false => rfl
    simp [this]
  refine ⟨hwf.sorted.sublist (List.filter_sublist ns), ?_, ?_, ?_, ?_⟩
  · refine hkeep [] dirNode hwf.root ?_
    intro hc
    exact hpne (List.prefix_nil.mp hc)
  · intro q m hq i hi
    rcases lookupL_filter_source hnd hq with ⟨hsrc, hf⟩
    have hnpq : ¬ p <+: q := by
      intro hc
      rw [isPrefixB_iff.mpr hc] at hf
      simp at hf
    have hdir := hwf.closed q m hsrc i hi
    refine hkeep (q.take i) dirNode hdir ?_
    intro hc
    exact hnpq (hc.trans (takePref i q))
  · intro q m hq ht
    rcases lookupL_filter_source hnd hq with ⟨hsrc, _⟩
    exact hwf.canon q m hsrc ht
  · intro q m hq s hs
    rcases lookupL_filter_source hnd hq with ⟨hsrc, _⟩
    exact hwf.valid q m hsrc s hs

/-- Renaming a subtree (after the conflict checks of `renameNode` have
passed) preserves well-formedness. -/
theorem WFn_rename {ns rest' : List (Path × FileNode)} {pOld pNew : Path}
    (hwf : WFn ns)
    (hnew : lookupL ns pNew = none)
    (hens : ensureAncestors (ns.filter (fun e => ! isPrefixB pOld e.1)) pNew
      = .ok rest')
    (hvalNew : ∀ s ∈ pNew, validSeg s) :
    WFn (insertAll rest'
      ((ns.filter (fun e => isPrefixB pOld e.1)).map
        (fun e => (pNew ++ e.1.drop pOld.length, e.2)))) := by
  have hnd := sortedNodes_nodupKeys hwf.sorted
  set sub := ns.filter (fun e => isPrefixB pOld e.1) with hsubdef
  set rest := ns.filter (fun e => ! isPrefixB pOld e.1) with hrestdef
  set rwl := sub.map (fun e => (pNew ++ e.1.drop pOld.length, e.2)) with hrwdef
  have hrests : SortedNodes rest := hwf.sorted.sublist (List.filter_sublist ns)
  have hrest'_sorted : SortedNodes rest' := ensureList_sorted hrests hens
  have hcanon_rest : CanonDirs rest := fun q m hq ht =>
    hwf.canon q m (lookupL_filter_source hnd hq).1 ht
  have hpNewne : pNew ≠ [] := by
    intro he
    rw [he, hwf.root] at hnew
    cases hnew
  have hrw_pref : ∀ x ∈ rwl, pNew <+: x.1 := by
    intro x hx
    rcases List.mem_map.mp hx with ⟨e, _, hee⟩
    rw [← hee]
    exact List.prefix_append _ _
  have hsubnd : (sub.map Prod.fst).Nodup := nodup_keys_filter hnd
  have hsub_pref : ∀ k ∈ sub.map Prod.fst, pOld <+: k := by
    intro k hk
    rcases List.mem_map.mp hk with ⟨e, he, hee⟩
    rw [← hee]
    exact isPrefixB_iff.mp (List.mem_filter.mp he).2
  have hrw_nodup : (rwl.map Prod.fst).Nodup := by
    have hmm : rwl.map Prod.fst =
        (sub.map Prod.fst).map (fun k => pNew ++ k.drop pOld.length) := by
      rw [hrwdef, List.map_map, List.map_map]
      rfl
    rw [hmm]
    refine hsubnd.map_on ?_
    intro x hx y hy hxy
    have hdx := List.append_cancel_left hxy
    have hx' : pOld ++ x.drop pOld.length = x := prefix_append_drop (hsub_pref x hx)
    have hy' : pOld ++ y.drop pOld.length = y := prefix_append_drop (hsub_pref y hy)
    rw [← hx', ← hy', hdx]
  have hno_under_new : ∀ q m, lookupL ns q = some m → ¬ pNew <+: q := by
    intro q m hq hc
    by_cases he : pNew = q
    · rw [he, hq] at hnew; cases hnew
    · have hlt : pNew.length < q.length := by
        rcases Nat.lt_or_ge pNew.length q.length with h | h
        · exact h
        · exact absurd (hc.eq_of_length (le_antisymm hc.length_le h)) he
      have hcl := hwf.closed q m hq pNew.length hlt
      rw [← List.prefix_iff_eq_take.mp hc, hnew] at hcl
      cases hcl
  have hrest_src : ∀ q m, lookupL rest q = some m →
      lookupL ns q = some m ∧ isPrefixB pOld q = false := by
    intro q m hq
    rcases lookupL_filter_source hnd hq with ⟨h1, h2⟩
    refine ⟨h1, ?_⟩
    cases hc : isPrefixB pOld q with
    | true => rw [hc] at h2; cases h2
    | false => rfl
  have hnotrw : ∀ q, ¬ pNew <+: q → ∀ x ∈ rwl, x.1 ≠ q :=
    fun q hq x hx he => hq (he ▸ hrw_pref x hx)
  have hL2 : ∀ q, (∀ x ∈ rwl, x.1 ≠ q) →
      lookupL (insertAll rest' rwl) q = lookupL rest' q :=
    fun q hq => lookupL_insertAll_notmem hq
  have hens_ensures : ∀ q ∈ properPrefixes pNew, lookupL rest' q = some dirNode :=
    ensureList_ensures hcanon_rest hens
  refine ⟨insertAll_sorted hrest'_sorted, ?_, ?_, ?_, ?_⟩
  · have hroot_not_new : ¬ pNew <+: ([] : Path) :=
      fun hc => hpNewne (List.prefix_nil.mp hc)
    rw [hL2 [] (hnotrw [] hroot_not_new)]
    exact hens_ensures []
      (mem_properPrefixes.mpr ⟨0, List.length_pos.mpr hpNewne, by simp⟩)
  · intro q m hq i hi
    by_cases hqrw : ∃ x ∈ rwl, x.1 = q
    · rcases hqrw with ⟨x, hx, hxq⟩
      rcases List.mem_map.mp hx with ⟨e, he, hex⟩
      have hens_mem : e ∈ ns := (List.mem_filter.mp he).1
      have hkpref : pOld <+: e.1 := isPrefixB_iff.mp (List.mem_filter.mp he).2
      have hk0 : pOld ++ e.1.drop pOld.length = e.1 := prefix_append_drop hkpref
      have hq_eq : q = pNew ++ e.1.drop pOld.length := by
        rw [← hxq, ← hex]
      have hilen : i < pNew.length + (e.1.drop pOld.length).length := by
        rw [hq_eq] at hi
        simpa [List.length_append] using hi
      rcases Nat.lt_trichotomy i pNew.length with hilt | hieq | higt
      · have htake : q.take i = pNew.take i := by
          rw [hq_eq, List.take_append_eq_append_take,
            show i - pNew.length = 0 from by omega, List.take_zero,
            List.append_nil]
        rw [htake]
        have hnp : ¬ pNew <+: pNew.take i := by
          intro hc
          have := hc.length_le
          rw [List.length_take] at this
          omega
        rw [hL2 _ (hnotrw _ hnp)]
        exact hens_ensures _ (mem_properPrefixes.mpr ⟨i, hilt, rfl⟩)
      · have htne : (e.1.drop pOld.length) ≠ [] := by
          intro hte
          rw [hte] at hilen
          simp at hilen
          omega
        have hlenOld : pOld.length < e.1.length := by
          conv_rhs => rw [← hk0]
          rw [List.length_append]
          have := List.length_pos.mpr htne
          omega
        have hloOld : lookupL ns pOld = some dirNode := by
          have hcl := hwf.closed e.1 e.2 (mem_lookupL hnd hens_mem)
            pOld.length hlenOld
          rw [← List.prefix_iff_eq_take.mp hkpref] at hcl
          exact hcl
        have hpOld_in_sub : ((pOld, dirNode) : Path × FileNode) ∈ sub :=
          List.mem_filter.mpr ⟨lookupL_mem hloOld,
            isPrefixB_iff.mpr (List.prefix_refl pOld)⟩
        have hmem_rw : ((pNew, dirNode) : Path × FileNode) ∈ rwl := by
          rw [hrwdef]
          refine List.mem_map.mpr ⟨(pOld, dirNode), hpOld_in_sub, ?_⟩
          simp [List.drop_length]
        have htake : q.take i = pNew := by
          rw [hq_eq, List.take_append_eq_append_take, hieq]
          simp
        rw [htake]
        exact lookupL_insertAll_mem hrw_nodup hmem_rw
      · have hjt : i - pNew.length < (e.1.drop pOld.length).length := by omega
        have htake : q.take i = pNew ++ (e.1.drop pOld.length).take (i - pNew.length) := by
          rw [hq_eq, List.take_append_eq_append_take,
            List.take_of_length_le (by omega)]
        have hlen2 : pOld.length + (i - pNew.length) < e.1.length := by
          conv_rhs => rw [← hk0]
          rw [List.length_append]
          omega
        have hkey : lookupL ns
            (pOld ++ (e.1.drop pOld.length).take (i - pNew.length)) = some dirNode := by
          have hcl := hwf.closed e.1 e.2 (mem_lookupL hnd hens_mem)
            (pOld.length + (i - pNew.length)) hlen2
          have htk2 : e.1.take (pOld.length + (i - pNew.length)) =
              pOld ++ (e.1.drop pOld.length).take (i - pNew.length) := by
            conv_lhs => rw [← hk0]
            rw [List.take_append_eq_append_take,
              List.take_of_length_le (by omega)]
            congr 2
            omega
          rw [htk2] at hcl
          exact hcl
        have hin_sub : ((pOld ++ (e.1.drop pOld.length).take (i - pNew.length),
            dirNode) : Path × FileNode) ∈ sub :=
          List.mem_filter.mpr ⟨lookupL_mem hkey,
            isPrefixB_iff.mpr (List.prefix_append _ _)⟩
        have hmem_rw : ((pNew ++ (e.1.drop pOld.length).take (i - pNew.length),
            dirNode) : Path × FileNode) ∈ rwl := by
          rw [hrwdef]
          refine List.mem_map.mpr ⟨_, hin_sub, ?_⟩
          simp [List.drop_left]
        rw [htake]
        exact lookupL_insertAll_mem hrw_nodup hmem_rw
    · push_neg at hqrw
      rw [hL2 q hqrw] at hq
      rcases ensureList_lookup_source hens hq with hsrc | ⟨hmem, _⟩
      · obtain ⟨hnsq, hnpref⟩ := hrest_src q m hsrc
        have hnonew : ¬ pNew <+: q := hno_under_new q m hnsq
        have hclosed := hwf.closed q m hnsq i hi
        have hnoOld_t : isPrefixB pOld (q.take i) = false := by
          cases hc : isPrefixB pOld (q.take i) with
          | true =>
            have : pOld <+: q := (isPrefixB_iff.mp hc).trans (takePref i q)
            rw [isPrefixB_iff.mpr this] at hnpref
            cases hnpref
          | false => rfl
        have hrest_t : lookupL rest (q.take i) = some dirNode :=
          lookupL_filter_some hnd hclosed (by simp [hnoOld_t])
        have hn2 : ¬ pNew <+: q.take i :=
          fun hc => hnonew (hc.trans (takePref i q))
        rw [hL2 _ (hnotrw _ hn2)]
        exact ensureList_preserves_some hens hrest_t
      · rcases mem_properPrefixes.mp hmem with ⟨j, hjlen, rfl⟩
        have hij : i < j := by
          rw [List.length_take] at hi
          omega
        have htk : (pNew.take j).take i = pNew.take i := by
          rw [List.take_take]
          congr 1
          omega
        rw [htk]
        have hn2 : ¬ pNew <+: pNew.take i := by
          intro hc
          have := hc.length_le
          rw [List.length_take] at this
          omega
        rw [hL2 _ (hnotrw _ hn2)]
        exact hens_ensures _ (mem_properPrefixes.mpr ⟨i, by omega, rfl⟩)
  · intro q m hq ht
    rcases lookupL_insertAll_source hq with hmem | hrest'q
    · rcases List.mem_map.mp hmem with ⟨e, he, hee⟩
      have hm2 : m = e.2 := (congrArg Prod.snd hee).symm
      subst hm2
      exact hwf.canon e.1 e.2 (mem_lookupL hnd (List.mem_filter.mp he).1) ht
    · rcases ensureList_lookup_source hens hrest'q with hsrc | ⟨_, hdm⟩
      · exact hwf.canon q m (hrest_src q m hsrc).1 ht
      · exact hdm
  · intro q m hq s hs
    rcases lookupL_insertAll_source hq with hmem | hrest'q
    · rcases List.mem_map.mp hmem with ⟨e, he, hee⟩
      have hq_eq : q = pNew ++ e.1.drop pOld.length := (congrArg Prod.fst hee).symm
      subst hq_eq
      rcases List.mem_append.mp hs with h | h
      · exact hvalNew s h
      · have hse : s ∈ e.1 := (List.drop_sublist _ _).subset h
        exact hwf.valid e.1 e.2
          (mem_lookupL hnd (List.mem_filter.mp he).1) s hse
    · rcases ensureList_lookup_source hens hrest'q with hsrc | ⟨hmm, _⟩
      · exact hwf.valid q m (hrest_src q m hsrc).1 s hs
      · rcases mem_properPrefixes.mp hmm with ⟨j, _, rfl⟩
        exact hvalNew s (mem_take_subset hs)

theorem WF_createFile {raw content : String} {v v' : Vfs} (hwf : WF v)
    (h : createFile raw content v = .ok v') : WF v' := by
  unfold createFile at h
  split at h
  · exact absurd h (by simp)
  · next p hnorm =>
      split at h
      · next n hl =>
          split at h
          · exact absurd h (by simp)
          · next ht =>
              have hv : v' = ⟨insertNode v.nodes p (fileNode content), v.version + 1⟩ :=
                (Except.ok.inj h).symm
              rw [hv]
              exact WFn_overwriteFile hwf hl ht
      · next hl =>
          split at h
          · exact absurd h (by simp)
          · next ns hens =>
              have hv : v' = ⟨insertNode ns p (fileNode content), v.version + 1⟩ :=
                (Except.ok.inj h).symm
              rw [hv]
              exact WFn_createNew hwf hl hens (normalize_validSeg hnorm)

theorem WF_replaceInFile {raw oldText newText : String} {v v' : Vfs}
    (hwf : WF v) (h : replaceInFile raw oldText newText v = .ok v') : WF v' := by
  unfold replaceInFile at h
  split at h
  · exact absurd h (by simp)
  · next p hnorm =>
      split at h
      · next c hl =>
          split at h
          · next =>
              have hv : v' = ⟨insertNode v.nodes p
                  (fileNode (String.mk
                    (replaceOnce oldText.data newText.data c.data))),
                  v.version + 1⟩ :=
                (Except.ok.inj h).symm
              rw [hv]
              exact WFn_overwriteFile hwf hl (by simp)
          · exact absurd h (by simp)
      · exact absurd h (by simp)

theorem WF_insertAt {raw : String} {ln : Nat} {text : String} {v v' : Vfs}
    (hwf : WF v) (h : insertAt raw ln text v = .ok v') : WF v' := by
  unfold insertAt at h
  split at h
  · exact absurd h (by simp)
  · next p hnorm =>
      split at h
      · next c hl =>
          split at h
          · exact absurd h (by simp)
          · next =>
              have hv : v' = ⟨insertNode v.nodes p
                  (fileNode (joinLines
                    ((linesOf c).take ln ++ [text] ++ (linesOf c).drop ln))),
                  v.version + 1⟩ :=
                (Except.ok.inj h).symm
              rw [hv]
              exact WFn_overwriteFile hwf hl (by simp)
      · exact absurd h (by simp)

theorem WF_deleteNode {raw : String} {v v' : Vfs} (hwf : WF v)
    (h : deleteNode raw v = .ok v') : WF v' := by
  unfold deleteNode at h
  split at h
  · exact absurd h (by simp)
  · next p hnorm =>
      split at h
      · exact absurd h (by simp)
      · next hpne =>
          split at h
          · exact absurd h (by simp)
          · next n hl =>
              have hv : v' = ⟨v.nodes.filter (fun e => ! isPrefixB p e.1),
                  v.version + 1⟩ :=
                (Except.ok.inj h).symm
              rw [hv]
              exact WFn_delete hwf hpne

theorem WF_renameNode {rawOld rawNew : String} {v v' : Vfs} (hwf : WF v)
    (h : renameNode rawOld rawNew v = .ok v') : WF v' := by
  unfold renameNode at h
  split at h
  · exact absurd h (by simp)
  · exact absurd h (by simp)
  · next pOld pNew hnOld hnNew =>
      split at h
      · exact absurd h (by simp)
      · next hpne =>
          split at h
          · exact absurd h (by simp)
          · next n hl =>
              split at h
              · exact absurd h (by simp)
              · next hnew =>
                  split at h
                  · exact absurd h (by simp)
                  · next hnocol =>
                      split at h
                      · exact absurd h (by simp)
                      · next rest' hens =>
                          have hnew' : lookupL v.nodes pNew = none := by
                            cases hc : lookupL v.nodes pNew with
                            | none => rfl
                            | some m => rw [hc] at hnew; simp at hnew
                          have hv : v' = ⟨insertAll rest'
                              ((v.nodes.filter (fun e => isPrefixB pOld e.1)).map
                                (fun e => (pNew ++ e.1.drop pOld.length, e.2))),
                              v.version + 1⟩ :=
                            (Except.ok.inj h).symm
                          rw [hv]
                          exact WFn_rename hwf hnew' hens
                            (normalize_validSeg hnNew)

/-- Every reachable tree is well-formed. -/
theorem WF_of_reachable {v : Vfs} (h : Reachable v) : WF v := by
  induction h with
  | empty => exact WFn_empty
  | doCreate raw content _ hstep ih => exact WF_createFile ih hstep
  | doReplace raw oldText newText _ hstep ih => exact WF_replaceInFile ih hstep
  | doInsert raw ln text _ hstep ih => exact WF_insertAt ih hstep
  | doDelete raw _ hstep ih => exact WF_deleteNode ih hstep
  | doRename rawOld rawNew _ hstep ih => exact WF_renameNode ih hstep

theorem ensureList_noop {ns : List (Path × FileNode)} {l : List Path}
    (h : ∀ q ∈ l, lookupL ns q = some dirNode) : ensureList ns l = .ok ns := by
  induction l with
  | nil => rfl
  | cons q qs ih =>
    have hq := h q (List.mem_cons_self q qs)
    simp only [ensureList, hq]
    rw [if_pos (show dirNode.type = NodeType.directory from rfl)]
    exact ih (fun r hr => h r (List.mem_cons_of_mem q hr))

theorem deserializeAux_cons_new {ns ns1 : List (Path × FileNode)}
    {s : String} {fn : FileNode} {rest : List (String × FileNode)} {p : Path}
    (hn : normalize s = .ok p) (hl : lookupL ns p = none)
    (he : ensureAncestors ns p = .ok ns1) :
    deserializeAux ns ((s, fn) :: rest) = deserializeAux (insertNode ns1 p fn) rest := by
  simp only [deserializeAux, hn, hl, he]

theorem deserializeAux_cons_hit {ns : List (Path × FileNode)}
    {s : String} {fn existing : FileNode} {rest : List (String × FileNode)}
    {p : Path} (hn : normalize s = .ok p) (hl : lookupL ns p = some existing)
    (ht : existing.type = fn.type) :
    deserializeAux ns ((s, fn) :: rest) = deserializeAux (insertNode ns p fn) rest := by
  simp only [deserializeAux, hn, hl, if_pos ht]

theorem pathLt_nil_right (p : Path) : pathLt p [] = false := by
  cases p <;> rfl

/-- Core of the round-trip law: re-reading a serialized well-formed suffix
extends the already rebuilt prefix to exactly the original node list. -/
theorem deserializeAux_roundtrip {all : List (Path × FileNode)} (hwf : WFn all) :
    ∀ todo done : List (Path × FileNode), all = done ++ todo →
    deserializeAux done (todo.map (fun e => (pathToString e.1, e.2))) = .ok all := by
  have hnd := sortedNodes_nodupKeys hwf.sorted
  intro todo
  induction todo with
  | nil =>
    intro done heq
    rw [heq]
    simp [deserializeAux]
  | cons e rest ih =>
    intro done heq
    obtain ⟨p, n⟩ := e
    have hsort := hwf.sorted
    rw [heq] at hsort
    have hparts := List.pairwise_append.mp hsort
    have hf1 : ∀ x ∈ done, pathLt x.1 p = true :=
      fun x hx => hparts.2.2 x hx (p, n) (List.mem_cons_self _ _)
    have hdone_sorted : SortedNodes done := hparts.1
    have hdone_nd := sortedNodes_nodupKeys hdone_sorted
    have hmem_all : ((p, n) : Path × FileNode) ∈ all := by
      rw [heq]
      exact List.mem_append.mpr (Or.inr (List.mem_cons_self _ _))
    have hlook_all : lookupL all p = some n := mem_lookupL hnd hmem_all
    have hvalid : ∀ s ∈ p, validSeg s := hwf.valid p n hlook_all
    have hf2 : normalize (pathToString p) = .ok p := normalize_pathToString hvalid
    have hf3 : lookupL done p = none := by
      rw [lookupL_eq_none_iff]
      intro hc
      rcases List.mem_map.mp hc with ⟨x, hx, hxe⟩
      have := hf1 x hx
      rw [hxe, pathLt_irrefl] at this
      cases this
    have hf4 : ensureAncestors done p = .ok done := by
      refine ensureList_noop ?_
      intro q hq
      rcases mem_properPrefixes.mp hq with ⟨i, hi, rfl⟩
      have hdir := hwf.closed p n hlook_all i hi
      have hmemd : ((p.take i, dirNode) : Path × FileNode) ∈ done := by
        have hmem := lookupL_mem hdir
        rw [heq] at hmem
        rcases List.mem_append.mp hmem with h | h
        · exact h
        · rcases List.mem_cons.mp h with h' | h'
          · exfalso
            have : p.take i = p := congrArg Prod.fst h'
            exact take_ne_self_of_lt hi this
          · exfalso
            have hlt := (List.pairwise_cons.mp hparts.2.1).1 _ h'
            have hlt2 : pathLt (p.take i) p = true :=
              pathLt_of_prefix_ne (takePref i p) (take_ne_self_of_lt hi)
            have := pathLt_trans hlt hlt2
            rw [pathLt_irrefl] at this
            cases this
      exact mem_lookupL hdone_nd hmemd
    rw [List.map_cons]
    rw [deserializeAux_cons_new hf2 hf3 hf4]
    rw [insertNode_append_of_gt hf1]
    exact ih (done ++ [(p, n)]) (by rw [heq]; simp)

/-- The Serializer round-trip law on well-formed trees: deserializing the
serialized snapshot reproduces the node list exactly (version resets). -/
theorem deserialize_serialize {v : Vfs} (hwf : WF v) :
    deserialize (serialize v) = .ok ⟨v.nodes, 0⟩ := by
  obtain ⟨rest, hrest⟩ : ∃ rest, v.nodes = ([], dirNode) :: rest := by
    have hmem := lookupL_mem hwf.root
    cases hns : v.nodes with
    | nil => rw [hns] at hmem; simp at hmem
    | cons e tail =>
      rw [hns] at hmem
      rcases List.mem_cons.mp hmem with he | hm
      · exact ⟨tail, congrArg (· :: tail) he.symm⟩
      · exfalso
        have hp := hwf.sorted
        rw [hns] at hp
        have hlt := (List.pairwise_cons.mp hp).1 _ hm
        rw [pathLt_nil_right] at hlt
        cases hlt
  have hser : serialize v =
      ("/", dirNode) :: rest.map (fun e => (pathToString e.1, e.2)) := by
    unfold serialize
    rw [hrest]
    rfl
  have hstep : deserializeAux emptyVfs.nodes (serialize v) = .ok v.nodes := by
    rw [hser]
    rw [deserializeAux_cons_hit (show normalize "/" = .ok [] from rfl)
      (show lookupL emptyVfs.nodes [] = some dirNode from rfl) rfl]
    rw [show insertNode emptyVfs.nodes [] dirNode = ([], dirNode) :: [] from rfl]
    exact deserializeAux_roundtrip hwf rest (([], dirNode) :: [])
      (by rw [hrest]; rfl)
  unfold deserialize
  rw [hstep]

/-- Re-inserting a binding that is already present leaves a sorted node
list unchanged. -/
theorem insertNode_self_of_lookup {ns : List (Path × FileNode)} {p : Path}
    {n : FileNode} (hs : SortedNodes ns) (hl : lookupL ns p = some n) :
    insertNode ns p n = ns := by
  induction ns with
  | nil => simp [lookupL] at hl
  | cons e rest ih =>
    rcases List.pairwise_cons.mp hs with ⟨he, hrest⟩
    by_cases hep : e.1 = p
    · rw [lookupL, if_pos hep] at hl
      have hn : n = e.2 := (Option.some.inj hl).symm
      simp only [insertNode, if_pos hep]
      rw [hn, ← hep]
    · rw [lookupL, if_neg hep] at hl
      have hmem : ((p, n) : Path × FileNode) ∈ rest := lookupL_mem hl
      have hlt : pathLt e.1 p = true := he (p, n) hmem
      have hnlt : ¬ pathLt p e.1 = true := by
        rw [pathLt_asymm hlt]
        simp
      simp only [insertNode, if_neg hep, if_neg hnlt]
      rw [ih hrest hl]

/-- If a path is absent from a well-formed tree, nothing lies at or below
it. -/
theorem no_node_under_absent {ns : List (Path × FileNode)} (hwf : WFn ns)
    {pNew : Path} (hnew : lookupL ns pNew = none) :
    ∀ q m, lookupL ns q = some m → ¬ pNew <+: q := by
  intro q m hq hc
  by_cases he : pNew = q
  · rw [he, hq] at hnew
    cases hnew
  · have hlt : pNew.length < q.length := by
      rcases Nat.lt_or_ge pNew.length q.length with h | h
      · exact h
      · exact absurd (hc.eq_of_length (le_antisymm hc.length_le h)) he
    have hcl := hwf.closed q m hq pNew.length hlt
    rw [← List.prefix_iff_eq_take.mp hc, hnew] at hcl
    cases hcl

/-- The rewritten subtree bindings of a rename have pairwise distinct
keys. -/
theorem rename_rwl_nodup {ns : List (Path × FileNode)}
    (hnd : (ns.map Prod.fst).Nodup) (pOld pNew : Path) :
    (((ns.filter (fun e => isPrefixB pOld e.1)).map
      (fun e => (pNew ++ e.1.drop pOld.length, e.2))).map Prod.fst).Nodup := by
  have hsubnd : ((ns.filter (fun e => isPrefixB pOld e.1)).map Prod.fst).Nodup :=
    nodup_keys_filter hnd
  have hsub_pref : ∀ k ∈ (ns.filter (fun e => isPrefixB pOld e.1)).map Prod.fst,
      pOld <+: k := by
    intro k hk
    rcases List.mem_map.mp hk with ⟨e, he, hee⟩
    rw [← hee]
    exact isPrefixB_iff.mp (List.mem_filter.mp he).2
  have hmm : ((ns.filter (fun e => isPrefixB pOld e.1)).map
        (fun e => (pNew ++ e.1.drop pOld.length, e.2))).map Prod.fst =
      ((ns.filter (fun e => isPrefixB pOld e.1)).map Prod.fst).map
        (fun k => pNew ++ k.drop pOld.length) := by
    rw [List.map_map, List.map_map]
    rfl
  rw [hmm]
  refine hsubnd.map_on ?_
  intro x hx y hy hxy
  have hdx := List.append_cancel_left hxy
  have hx' : pOld ++ x.drop pOld.length = x := prefix_append_drop (hsub_pref x hx)
  have hy' : pOld ++ y.drop pOld.length = y := prefix_append_drop (hsub_pref y hy)
  rw [← hx', ← hy', hdx]

/-- The shape of every successful `renameNode` call: the checks that must
have passed and the resulting tree. -/
theorem renameNode_ok_shape {rawOld rawNew : String} {v v' : Vfs}
    (h : renameNode rawOld rawNew v = .ok v') :
    ∃ pOld pNew rest',
      normalize rawOld = .ok pOld ∧ normalize rawNew = .ok pNew ∧
      pOld ≠ [] ∧ lookupL v.nodes pOld ≠ none ∧
      lookupL v.nodes pNew = none ∧
      ensureAncestors (v.nodes.filter (fun e => ! isPrefixB pOld e.1)) pNew
        = .ok rest' ∧
      v' = ⟨insertAll rest'
          ((v.nodes.filter (fun e => isPrefixB pOld e.1)).map
            (fun e => (pNew ++ e.1.drop pOld.length, e.2))),
        v.version + 1⟩ := by
  unfold renameNode at h
  split at h
  · exact absurd h (by simp)
  · exact absurd h (by simp)
  · next pOld pNew hnOld hnNew =>
      split at h
      · exact absurd h (by simp)
      · next hpne =>
          split at h
          · exact absurd h (by simp)
          · next n hl =>
              split at h
              · exact absurd h (by simp)
              · next hnew =>
                  split at h
                  · exact absurd h (by simp)
                  · next hnocol =>
                      split at h
                      · exact absurd h (by simp)
                      · next rest' hens =>
                          refine ⟨pOld, pNew, rest', hnOld, hnNew, hpne, ?_, ?_,
                            hens, (Except.ok.inj h).symm⟩
                          · rw [hl]; simp
                          · cases hc : lookupL v.nodes pNew with
                            | none => rfl
                            | some m => rw [hc] at hnew; simp at hnew

theorem createFile_version {raw content : String} {v v' : Vfs}
    (h : createFile raw content v = .ok v') : v'.version = v.version + 1 := by
  unfold createFile at h
  split at h
  · exact absurd h (by simp)
  · split at h
    · split at h
      · exact absurd h (by simp)
      · rw [← Except.ok.inj h]
    · split at h
      · exact absurd h (by simp)
      · rw [← Except.ok.inj h]

theorem replaceInFile_version {raw oldText newText : String} {v v' : Vfs}
    (h : replaceInFile raw oldText newText v = .ok v') :
    v'.version = v.version + 1 := by
  unfold replaceInFile at h
  split at h
  · exact absurd h (by simp)
  · split at h
    · split at h
      · rw [← Except.ok.inj h]
      · exact absurd h (by simp)
    · exact absurd h (by simp)

theorem insertAt_version {raw : String} {ln : Nat} {text : String} {v v' : Vfs}
    (h : insertAt raw ln text v = .ok v') : v'.version = v.version + 1 := by
  unfold insertAt at h
  split at h
  · exact absurd h (by simp)
  · split at h
    · split at h
      · exact absurd h (by simp)
      · rw [← Except.ok.inj h]
    · exact absurd h (by simp)

theorem deleteNode_version {raw : String} {v v' : Vfs}
    (h : deleteNode raw v = .ok v') : v'.version = v.version + 1 := by
  unfold deleteNode at h
  split at h
  · exact absurd h (by simp)
  · split at h
    · exact absurd h (by simp)
    · split at h
      · exact absurd h (by simp)
      · rw [← Except.ok.inj h]

theorem renameNode_version {rawOld rawNew : String} {v v' : Vfs}
    (h : renameNode rawOld rawNew v = .ok v') : v'.version = v.version + 1 := by
  unfold renameNode at h
  split at h
  · exact absurd h (by simp)
  · exact absurd h (by simp)
  · split at h
    · exact absurd h (by simp)
    · split at h
      · exact absurd h (by simp)
      · split at h
        · exact absurd h (by simp)
        · split at h
          · exact absurd h (by simp)
          · split at h
            · exact absurd h (by simp)
            · rw [← Except.ok.inj h]

theorem runLoopAux_budget (model : Nat → Option Turn)
    (h : ∀ i, ∃ t, model i = some t ∧ t.toolCalls ≠ []) :
    ∀ fuel i v tr,
      (runLoopAux model fuel i v tr).state = .done ∧
      (runLoopAux model fuel i v tr).rounds = i + fuel ∧
      (runLoopAux model fuel i v tr).snapshot.isSome = true := by
  intro fuel
  induction fuel with
  | zero => intro i v tr; exact ⟨rfl, rfl, rfl⟩
  | succ fuel ih =>
    intro i v tr
    rcases h i with ⟨t, hmt, htc⟩
    have hne : t.toolCalls.isEmpty = false := by
      cases hc : t.toolCalls with
      | nil => exact absurd hc htc
      | cons a rest => rfl
    simp only [runLoopAux, hmt, hne, Bool.false_eq_true, if_false]
    cases hexec : execTurn t.toolCalls v with
    | mk rs v' =>
      rcases ih (i + 1) v' (tr ++ [(t, rs)]) with ⟨h1, h2, h3⟩
      refine ⟨h1, ?_, h3⟩
      rw [h2]
      omega

/-- C1: for every reachable VirtualFileSystem state,
`deserialize(serialize(vfs))` succeeds and is observably equivalent to the
original state under every read operation — in particular it yields
identical `listAll()` output (content equality of the node snapshot). -/
theorem claim_C1_roundtrip :
    ∀ v : Vfs, Reachable v →
      ∃ v', deserialize (serialize v) = .ok v' ∧
        listAll v' = listAll v ∧
        v'.nodes = v.nodes ∧
        (∀ raw, readFile raw v' = readFile raw v) ∧
        (∀ raw, list raw v' = list raw v) ∧
        detectEntryPoint v' = detectEntryPoint v := by
  intro v hr
  have hwf := WF_of_reachable hr
  exact ⟨⟨v.nodes, 0⟩, deserialize_serialize hwf, rfl, rfl,
    fun raw => rfl, fun raw => rfl, rfl⟩

/-- Witness for C1 at the concrete reachable state `c1demo`. -/
theorem claim_C1_roundtrip_witness :
    ∃ v', deserialize (serialize c1demo) = .ok v' ∧
      listAll v' = listAll c1demo ∧
      v'.nodes = c1demo.nodes ∧
      (∀ raw, readFile raw v' = readFile raw c1demo) ∧
      (∀ raw, list raw v' = list raw c1demo) ∧
      detectEntryPoint v' = detectEntryPoint c1demo :=
  claim_C1_roundtrip c1demo
    (Reachable.doCreate "/App.jsx" "x" Reachable.empty (by decide))

theorem createFile_ok_self {raw content : String} {v v' : Vfs} {p : Path}
    (hn : normalize raw = .ok p) (h : createFile raw content v = .ok v') :
    lookupL v'.nodes p = some (fileNode content) := by
  unfold createFile at h
  rw [hn] at h
  simp only [] at h
  split at h
  · split at h
    · exact absurd h (by simp)
    · rw [← Except.ok.inj h]
      exact lookupL_insertNode_self v.nodes p (fileNode content)
  · split at h
    · exact absurd h (by simp)
    · next ns hens =>
        rw [← Except.ok.inj h]
        exact lookupL_insertNode_self ns p (fileNode content)

theorem createFile_ok_ancestors {raw content : String} {v v' : Vfs} {p : Path}
    (hwf : WF v) (hn : normalize raw = .ok p)
    (h : createFile raw content v = .ok v') :
    ∀ i, i < p.length → lookupL v'.nodes (p.take i) = some dirNode := by
  unfold createFile at h
  rw [hn] at h
  simp only [] at h
  split at h
  · next n hl =>
      split at h
      · exact absurd h (by simp)
      · intro i hi
        rw [← Except.ok.inj h]
        show lookupL (insertNode v.nodes p (fileNode content)) (p.take i) = _
        rw [lookupL_insertNode_ne (take_ne_self_of_lt hi)]
        exact hwf.closed p n hl i hi
  · next hl =>
      split at h
      · exact absurd h (by simp)
      · next ns hens =>
          intro i hi
          rw [← Except.ok.inj h]
          show lookupL (insertNode ns p (fileNode content)) (p.take i) = _
          rw [lookupL_insertNode_ne (take_ne_self_of_lt hi)]
          exact ensureList_ensures hwf.canon hens (p.take i)
            (mem_properPrefixes.mpr ⟨i, hi, rfl⟩)

/-- C2: `createFile` has upsert semantics: an existing file at the
normalized path is overwritten, a directory there fails the call with
`PathConflict`, missing ancestor directories are auto-created, and a
second identical call leaves the tree unchanged beyond the version
counter.  The concrete conjuncts are the spec's auto-materialization
example. -/
theorem claim_C2_createFile_upsert :
    (∀ (v : Vfs) (raw content : String) (p : Path),
      WF v → normalize raw = .ok p →
      ((∀ n, lookupNode v p = some n → n.type = .file →
        ∃ v', createFile raw content v = .ok v' ∧
          lookupNode v' p = some (fileNode content) ∧
          ∀ q, q ≠ p → lookupNode v' q = lookupNode v q) ∧
      (∀ n, lookupNode v p = some n → n.type = .directory →
        createFile raw content v = .error .pathConflict) ∧
      (∀ v', createFile raw content v = .ok v' →
        lookupNode v' p = some (fileNode content) ∧
        ∀ i, i < p.length → ∃ fn, lookupNode v' (p.take i) = some fn ∧
          fn.type = .directory) ∧
      (∀ v', createFile raw content v = .ok v' →
        ∃ v'', createFile raw content v' = .ok v'' ∧
          v''.nodes = v'.nodes ∧ v''.version = v'.version + 1))) ∧
    list "/a" c2demo = .ok ["b"] ∧
    list "/a/b" c2demo = .ok ["c.txt"] := by
  refine ⟨?_, by decide, by decide⟩
  intro v raw content p hwf hn
  refine ⟨?_, ?_, ?_, ?_⟩
  · intro n hl ht
    have hnd : ¬ n.type = .directory := by
      rw [ht]; intro hc; cases hc
    refine ⟨⟨insertNode v.nodes p (fileNode content), v.version + 1⟩, ?_, ?_, ?_⟩
    · unfold createFile
      rw [hn]
      simp only []
      rw [show lookupL v.nodes p = some n from hl]
      show (if n.type = NodeType.directory then Except.error VfsError.pathConflict
        else Except.ok
          (⟨insertNode v.nodes p (fileNode content), v.version + 1⟩ : Vfs)) = _
      rw [if_neg hnd]
    · exact lookupL_insertNode_self v.nodes p (fileNode content)
    · intro q hq
      exact lookupL_insertNode_ne hq
  · intro n hl ht
    unfold createFile
    rw [hn]
    simp only []
    rw [show lookupL v.nodes p = some n from hl]
    show (if n.type = NodeType.directory then Except.error VfsError.pathConflict
      else Except.ok
        (⟨insertNode v.nodes p (fileNode content), v.version + 1⟩ : Vfs)) = _
    rw [if_pos ht]
  · intro v' h
    exact ⟨createFile_ok_self hn h,
      fun i hi => ⟨dirNode, createFile_ok_ancestors hwf hn h i hi, rfl⟩⟩
  · intro v' h
    have hwf' : WF v' := WF_createFile hwf h
    have hself := createFile_ok_self hn h
    refine ⟨⟨insertNode v'.nodes p (fileNode content), v'.version + 1⟩, ?_, ?_, rfl⟩
    · unfold createFile
      rw [hn]
      simp only []
      rw [hself]
      show (if (fileNode content).type = NodeType.directory then
          Except.error VfsError.pathConflict
        else Except.ok
          (⟨insertNode v'.nodes p (fileNode content), v'.version + 1⟩ : Vfs)) = _
      rw [if_neg (show ¬ (fileNode content).type = .directory from fun hc => nomatch hc)]
    · exact insertNode_self_of_lookup hwf'.sorted hself

/-- Witness for C2: the whole statement at the spec's concrete example. -/
theorem claim_C2_createFile_upsert_witness :
    ((∀ n, lookupNode emptyVfs ["a", "b", "c.txt"] = some n →
        n.type = .file →
      ∃ v', createFile "/a/b/c.txt" "x" emptyVfs = .ok v' ∧
        lookupNode v' ["a", "b", "c.txt"] = some (fileNode "x") ∧
        ∀ q, q ≠ ["a", "b", "c.txt"] →
          lookupNode v' q = lookupNode emptyVfs q) ∧
    (∀ n, lookupNode emptyVfs ["a", "b", "c.txt"] = some n →
        n.type = .directory →
      createFile "/a/b/c.txt" "x" emptyVfs = .error .pathConflict) ∧
    (∀ v', createFile "/a/b/c.txt" "x" emptyVfs = .ok v' →
      lookupNode v' ["a", "b", "c.txt"] = some (fileNode "x") ∧
      ∀ i, i < (["a", "b", "c.txt"] : Path).length →
        ∃ fn, lookupNode v' ((["a", "b", "c.txt"] : Path).take i) = some fn ∧
          fn.type = .directory) ∧
    (∀ v', createFile "/a/b/c.txt" "x" emptyVfs = .ok v' →
      ∃ v'', createFile "/a/b/c.txt" "x" v' = .ok v'' ∧
        v''.nodes = v'.nodes ∧ v''.version = v'.version + 1)) :=
  claim_C2_createFile_upsert.1 emptyVfs "/a/b/c.txt" "x" ["a", "b", "c.txt"]
    WFn_empty (by decide)

theorem renameNode_norm {rawOld rawNew : String} {pOld pNew : Path} {v : Vfs}
    (hnOld : normalize rawOld = .ok pOld)
    (hnNew : normalize rawNew = .ok pNew) :
    renameNode rawOld rawNew v =
      (if pOld = [] then Except.error VfsError.invalidPath
       else
        match lookupL v.nodes pOld with
        | none => Except.error VfsError.notFound
        | some _ =>
            if (lookupL v.nodes pNew).isSome then
              Except.error VfsError.pathConflict
            else
              if ((v.nodes.filter (fun e => isPrefixB pOld e.1)).map
                    (fun e => (pNew ++ e.1.drop pOld.length, e.2))).any
                  (fun e =>
                    (lookupL (v.nodes.filter (fun e => ! isPrefixB pOld e.1))
                      e.1).isSome) then
                Except.error VfsError.pathConflict
              else
                match ensureAncestors
                    (v.nodes.filter (fun e => ! isPrefixB pOld e.1)) pNew with
                | .error e => Except.error e
                | .ok rest' =>
                    Except.ok ⟨insertAll rest'
                        ((v.nodes.filter (fun e => isPrefixB pOld e.1)).map
                          (fun e => (pNew ++ e.1.drop pOld.length, e.2))),
                      v.version + 1⟩) := by
  unfold renameNode
  rw [hnOld, hnNew]

/-- C3: `renameNode` is all-or-nothing: with the old path present, an
occupied new path — or an occupied rewritten descendant path — fails the
call with `PathConflict` and the executor leaves the tree with zero
mutation; otherwise every descendant's path prefix is rewritten as one
atomic unit.  The concrete conjuncts are the spec's `/a` → `/b`
example. -/
theorem claim_C3_rename_atomic :
    (∀ (v : Vfs) (rawOld rawNew : String) (pOld pNew : Path),
      WF v → normalize rawOld = .ok pOld → normalize rawNew = .ok pNew →
      pOld ≠ [] →
      (lookupNode v pOld = none →
        renameNode rawOld rawNew v = .error .notFound) ∧
      (lookupNode v pOld ≠ none → lookupNode v pNew ≠ none →
        renameNode rawOld rawNew v = .error .pathConflict) ∧
      (lookupNode v pOld ≠ none →
        (∃ k n, (k, n) ∈ v.nodes ∧ pOld <+: k ∧
          ¬ pOld <+: (pNew ++ k.drop pOld.length) ∧
          lookupNode v (pNew ++ k.drop pOld.length) ≠ none) →
        renameNode rawOld rawNew v = .error .pathConflict) ∧
      (∀ v', renameNode rawOld rawNew v = .ok v' →
        (∀ k n, (k, n) ∈ v.nodes → pOld <+: k →
          lookupNode v' (pNew ++ k.drop pOld.length) = some n) ∧
        (∀ k n, (k, n) ∈ v.nodes → ¬ pOld <+: k →
          lookupNode v' k = some n) ∧
        (¬ pOld <+: pNew →
          ∀ k m, lookupNode v' k = some m → ¬ pOld <+: k)) ∧
      (∀ e, renameNode rawOld rawNew v = .error e →
        execTool (.rename rawOld rawNew) v = (.error e, v))) ∧
    (renameNode "/a" "/b" c3demoA).isOk = true ∧
    lookupNode (resVfs (renameNode "/a" "/b" c3demoA)) ["b", "x.txt"] =
      some (fileNode "1") ∧
    lookupNode (resVfs (renameNode "/a" "/b" c3demoA)) ["a"] = none ∧
    lookupNode (resVfs (renameNode "/a" "/b" c3demoA)) ["a", "x.txt"] = none ∧
    renameNode "/a" "/b" c3demoB = .error .pathConflict ∧
    execTool (.rename "/a" "/b") c3demoB = (.error .pathConflict, c3demoB) := by
  refine ⟨?_, by decide, by decide, by decide, by decide, by decide, by decide⟩
  intro v rawOld rawNew pOld pNew hwf hnOld hnNew hpne
  have hnd := sortedNodes_nodupKeys hwf.sorted
  refine ⟨?_, ?_, ?_, ?_, ?_⟩
  · intro hl
    rw [renameNode_norm hnOld hnNew, if_neg hpne,
      show lookupL v.nodes pOld = none from hl]
  · intro hlo hln
    cases ho : lookupL v.nodes pOld with
    | none => exact absurd ho hlo
    | some n0 =>
      have hln' : lookupL v.nodes pNew ≠ none := hln
      rw [renameNode_norm hnOld hnNew, if_neg hpne, ho]
      show (if (lookupL v.nodes pNew).isSome then
          Except.error VfsError.pathConflict else _) = _
      rw [if_pos (Option.isSome_iff_ne_none.mpr hln')]
  · intro hlo hex
    cases hn2 : lookupL v.nodes pNew with
    | some m0 =>
      cases ho : lookupL v.nodes pOld with
      | none => exact absurd ho hlo
      | some n0 =>
        rw [renameNode_norm hnOld hnNew, if_neg hpne, ho]
        show (if (lookupL v.nodes pNew).isSome then
            Except.error VfsError.pathConflict else _) = _
        rw [if_pos (by rw [hn2]; rfl)]
    | none =>
      rcases hex with ⟨k, n, hkmem, hkpref, hnotpOld, hocc⟩
      cases hoc : lookupL v.nodes (pNew ++ k.drop pOld.length) with
      | none => exact absurd hoc hocc
      | some m =>
        cases ho : lookupL v.nodes pOld with
        | none => exact absurd ho hlo
        | some n0 =>
          have hany : (((v.nodes.filter (fun e => isPrefixB pOld e.1)).map
              (fun e => (pNew ++ e.1.drop pOld.length, e.2))).any
              (fun e =>
                (lookupL (v.nodes.filter (fun e => ! isPrefixB pOld e.1))
                  e.1).isSome)) = true := by
            rw [List.any_eq_true]
            refine ⟨(pNew ++ k.drop pOld.length, n), ?_, ?_⟩
            · exact List.mem_map.mpr ⟨(k, n),
                List.mem_filter.mpr ⟨hkmem, isPrefixB_iff.mpr hkpref⟩, rfl⟩
            · have hpref_false : isPrefixB pOld (pNew ++ k.drop pOld.length) = false := by
                cases hc : isPrefixB pOld (pNew ++ k.drop pOld.length) with
                | true => exact absurd (isPrefixB_iff.mp hc) hnotpOld
                | false => rfl
              have hrest : lookupL
                  (v.nodes.filter (fun e => ! isPrefixB pOld e.1))
                  (pNew ++ k.drop pOld.length) = some m :=
                lookupL_filter_some hnd hoc (by simp [hpref_false])
              rw [hrest]
              rfl
          rw [renameNode_norm hnOld hnNew, if_neg hpne, ho]
          show (if (lookupL v.nodes pNew).isSome then
              Except.error VfsError.pathConflict else _) = _
          rw [if_neg (by rw [hn2]; simp), if_pos hany]
  · intro v' h
    obtain ⟨pOld', pNew', rest', hnOld', hnNew', hpne', hlo', hnew', hens', hv'⟩ :=
      renameNode_ok_shape h
    have heqOld : pOld' = pOld := Except.ok.inj (hnOld'.symm.trans hnOld)
    have heqNew : pNew' = pNew := Except.ok.inj (hnNew'.symm.trans hnNew)
    rw [heqOld] at hlo' hens' hv'
    rw [heqNew] at hnew' hens' hv'
    have hrwnd := rename_rwl_nodup hnd pOld pNew
    refine ⟨?_, ?_, ?_⟩
    · intro k n hkm hkp
      rw [hv']
      show lookupL (insertAll rest' _) _ = _
      exact lookupL_insertAll_mem hrwnd (List.mem_map.mpr ⟨(k, n),
        List.mem_filter.mpr ⟨hkm, isPrefixB_iff.mpr hkp⟩, rfl⟩)
    · intro k n hkm hknp
      rw [hv']
      have hlk : lookupL v.nodes k = some n := mem_lookupL hnd hkm
      have hpf : isPrefixB pOld k = false := by
        cases hc : isPrefixB pOld k with
        | true => exact absurd (isPrefixB_iff.mp hc) hknp
        | false => rfl
      have hrest : lookupL (v.nodes.filter (fun e => ! isPrefixB pOld e.1)) k
          = some n := lookupL_filter_some hnd hlk (by simp [hpf])
      have hrest2 := ensureList_preserves_some hens' hrest
      have hnotnew : ¬ pNew <+: k := no_node_under_absent hwf hnew' k n hlk
      have hnot : ∀ x ∈ ((v.nodes.filter (fun e => isPrefixB pOld e.1)).map
          (fun e => (pNew ++ e.1.drop pOld.length, e.2))), x.1 ≠ k := by
        intro x hx he
        rcases List.mem_map.mp hx with ⟨e, _, hee⟩
        have : pNew <+: x.1 := by
          rw [← hee]
          exact List.prefix_append _ _
        exact hnotnew (he ▸ this)
      show lookupL (insertAll rest' _) k = some n
      rw [lookupL_insertAll_notmem hnot]
      exact hrest2
    · intro hsep k m hkl hc
      rw [hv'] at hkl
      rcases lookupL_insertAll_source hkl with hmem | hrq
      · rcases List.mem_map.mp hmem with ⟨e, _, hee⟩
        have hkeq : k = pNew ++ e.1.drop pOld.length :=
          (congrArg Prod.fst hee).symm
        have hpNewk : pNew <+: k := by
          rw [hkeq]
          exact List.prefix_append _ _
        rcases le_or_lt pOld.length pNew.length with hlen | hlen
        · exact hsep (List.prefix_of_prefix_length_le hc hpNewk hlen)
        · have hpNO : pNew <+: pOld :=
            List.prefix_of_prefix_length_le hpNewk hc (le_of_lt hlen)
          cases ho : lookupL v.nodes pOld with
          | none => exact hlo' ho
          | some n0 =>
            have hcl := hwf.closed pOld n0 ho pNew.length hlen
            rw [← List.prefix_iff_eq_take.mp hpNO, hnew'] at hcl
            cases hcl
      · rcases ensureList_lookup_source hens' hrq with hsrc | ⟨hmm, _⟩
        · have hfl := (lookupL_filter_source hnd hsrc).2
          rw [isPrefixB_iff.mpr hc] at hfl
          simp at hfl
        · rcases mem_properPrefixes.mp hmm with ⟨j, _, rfl⟩
          exact hsep (hc.trans (takePref j pNew))
  · intro e h
    show applyMut (renameNode rawOld rawNew v) v = _
    rw [h]
    rfl

/-- Witness for C3 at the spec's concrete example state. -/
theorem claim_C3_rename_atomic_witness :
    ((lookupNode c3demoA ["a"] = none →
        renameNode "/a" "/b" c3demoA = .error .notFound) ∧
      (lookupNode c3demoA ["a"] ≠ none → lookupNode c3demoA ["b"] ≠ none →
        renameNode "/a" "/b" c3demoA = .error .pathConflict) ∧
      (lookupNode c3demoA ["a"] ≠ none →
        (∃ k n, (k, n) ∈ c3demoA.nodes ∧ ["a"] <+: k ∧
          ¬ (["a"] : Path) <+: (["b"] ++ k.drop (["a"] : Path).length) ∧
          lookupNode c3demoA (["b"] ++ k.drop (["a"] : Path).length) ≠ none) →
        renameNode "/a" "/b" c3demoA = .error .pathConflict) ∧
      (∀ v', renameNode "/a" "/b" c3demoA = .ok v' →
        (∀ k n, (k, n) ∈ c3demoA.nodes → ["a"] <+: k →
          lookupNode v' (["b"] ++ k.drop (["a"] : Path).length) = some n) ∧
        (∀ k n, (k, n) ∈ c3demoA.nodes → ¬ (["a"] : Path) <+: k →
          lookupNode v' k = some n) ∧
        (¬ (["a"] : Path) <+: ["b"] →
          ∀ k m, lookupNode v' k = some m → ¬ (["a"] : Path) <+: k)) ∧
      (∀ e, renameNode "/a" "/b" c3demoA = .error e →
        execTool (.rename "/a" "/b") c3demoA = (.error e, c3demoA))) :=
  claim_C3_rename_atomic.1 c3demoA "/a" "/b" ["a"] ["b"]
    (WF_of_reachable
      (Reachable.doCreate "/a/x.txt" "1" Reachable.empty (by decide)))
    (by decide) (by decide) (by decide)

/-- C4: `replaceInFile` fails with `NotFound` whenever the file does not
exist (absent path or a directory) or the anchor occurs zero or more than
one time; exactly one occurrence is the only accepted precondition, and on
any failure the executor leaves the tree — hence the file content —
byte-identical to before the call. -/
theorem claim_C4_replace_guard :
    (∀ (v : Vfs) (raw oldText newText : String) (p : Path),
      normalize raw = .ok p →
      (lookupNode v p = none →
        replaceInFile raw oldText newText v = .error .notFound) ∧
      (∀ n, lookupNode v p = some n → n.type = .directory →
        replaceInFile raw oldText newText v = .error .notFound) ∧
      (∀ c, lookupNode v p = some (fileNode c) →
        occCount oldText.data c.data ≠ 1 →
        replaceInFile raw oldText newText v = .error .notFound) ∧
      (∀ c, lookupNode v p = some (fileNode c) →
        occCount oldText.data c.data = 1 →
        ∃ v', replaceInFile raw oldText newText v = .ok v' ∧
          readFile raw v' = .ok (String.mk
            (replaceOnce oldText.data newText.data c.data))) ∧
      (∀ e, replaceInFile raw oldText newText v = .error e →
        execTool (.replace raw oldText newText) v = (.error e, v))) ∧
    replaceInFile "/f.txt" "ab" "z" c4demo = .error .notFound ∧
    replaceInFile "/f.txt" "zz" "z" c4demo = .error .notFound ∧
    execTool (.replace "/f.txt" "ab" "z") c4demo =
      (.error .notFound, c4demo) := by
  refine ⟨?_, by decide, by decide, by decide⟩
  intro v raw oldText newText p hn
  refine ⟨?_, ?_, ?_, ?_, ?_⟩
  · intro hl
    unfold replaceInFile
    rw [hn]
    simp only []
    rw [show lookupL v.nodes p = none from hl]
  · intro n hl ht
    cases n with
    | mk nt nc =>
      cases nt with
      | file => exact absurd ht (fun hc => nomatch hc)
      | directory =>
        unfold replaceInFile
        rw [hn]
        simp only []
        rw [show lookupL v.nodes p = some ⟨NodeType.directory, nc⟩ from hl]
  · intro c hl hcount
    unfold replaceInFile
    rw [hn]
    simp only []
    rw [show lookupL v.nodes p = some ⟨NodeType.file, some c⟩ from hl]
    show (if occCount oldText.data c.data = 1 then _ else
      Except.error VfsError.notFound) = _
    rw [if_neg hcount]
  · intro c hl hcount
    refine ⟨⟨insertNode v.nodes p
      (fileNode (String.mk (replaceOnce oldText.data newText.data c.data))),
      v.version + 1⟩, ?_, ?_⟩
    · unfold replaceInFile
      rw [hn]
      simp only []
      rw [show lookupL v.nodes p = some ⟨NodeType.file, some c⟩ from hl]
      show (if occCount oldText.data c.data = 1 then _ else
        Except.error VfsError.notFound) = _
      rw [if_pos hcount]
    · unfold readFile
      rw [hn]
      simp only []
      rw [lookupL_insertNode_self]
      rfl
  · intro e h
    show applyMut (replaceInFile raw oldText newText v) v = _
    rw [h]
    rfl

/-- Witness for C4 at the concrete state `c4demo` and path `/f.txt`. -/
theorem claim_C4_replace_guard_witness :
    ((lookupNode c4demo ["f.txt"] = none →
        replaceInFile "/f.txt" "ab" "z" c4demo = .error .notFound) ∧
      (∀ n, lookupNode c4demo ["f.txt"] = some n → n.type = .directory →
        replaceInFile "/f.txt" "ab" "z" c4demo = .error .notFound) ∧
      (∀ c, lookupNode c4demo ["f.txt"] = some (fileNode c) →
        occCount "ab".data c.data ≠ 1 →
        replaceInFile "/f.txt" "ab" "z" c4demo = .error .notFound) ∧
      (∀ c, lookupNode c4demo ["f.txt"] = some (fileNode c) →
        occCount "ab".data c.data = 1 →
        ∃ v', replaceInFile "/f.txt" "ab" "z" c4demo = .ok v' ∧
          readFile "/f.txt" v' = .ok (String.mk
            (replaceOnce "ab".data "z".data c.data))) ∧
      (∀ e, replaceInFile "/f.txt" "ab" "z" c4demo = .error e →
        execTool (.replace "/f.txt" "ab" "z") c4demo = (.error e, c4demo))) :=
  claim_C4_replace_guard.1 c4demo "/f.txt" "ab" "z" ["f.txt"] (by decide)

theorem mutTool_facts {r : Except VfsError Vfs} {v : Vfs}
    (hver : ∀ v1, r = .ok v1 → v1.version = v.version + 1) :
    ((applyMut r v).1.isOk = false → (applyMut r v).2 = v) ∧
    ((applyMut r v).2.version ≠ v.version ↔ (applyMut r v).1.isOk = true) ∧
    ((applyMut r v).1.isOk = true → (applyMut r v).2.version = v.version + 1) := by
  cases r with
  | ok v1 =>
    have hv := hver v1 rfl
    refine ⟨?_, ?_, ?_⟩
    · intro hc
      rw [show (applyMut (Except.ok v1) v).1.isOk = true from rfl] at hc
      cases hc
    · have h2 : (applyMut (Except.ok v1) v).2.version = v.version + 1 := by
        rw [show (applyMut (Except.ok v1) v).2 = v1 from rfl, hv]
      rw [h2, show (applyMut (Except.ok v1) v).1.isOk = true from rfl]
      constructor
      · intro _; rfl
      · intro _; omega
    · intro _
      rw [show (applyMut (Except.ok v1) v).2 = v1 from rfl, hv]
  | error e =>
    refine ⟨fun _ => rfl, ?_, ?_⟩
    · rw [show (applyMut (Except.error e) v).2 = v from rfl,
        show (applyMut (Except.error e) v).1.isOk = false from rfl]
      simp
    · intro hc
      rw [show (applyMut (Except.error e) v).1.isOk = false from rfl] at hc
      cases hc

/-- C5: every mutating call that succeeds increments `version` exactly
once, no matter how many nodes it touches; failed calls and reads leave
the state (hence the version) unchanged, so the version differs after an
executor call exactly when a successful mutating call occurred. -/
theorem claim_C5_version_discipline :
    ∀ (tc : ToolCall) (v : Vfs),
      ((execTool tc v).1.isOk = false → (execTool tc v).2 = v) ∧
      (tc.mutating = false → (execTool tc v).2 = v) ∧
      ((execTool tc v).2.version ≠ v.version ↔
        ((execTool tc v).1.isOk = true ∧ tc.mutating = true)) ∧
      ((execTool tc v).1.isOk = true → tc.mutating = true →
        (execTool tc v).2.version = v.version + 1) := by
  intro tc v
  cases tc with
  | view raw =>
    cases hr : readFile raw v with
    | ok c =>
      refine ⟨?_, fun _ => ?_, ?_, ?_⟩ <;>
        simp [execTool, hr, ToolCall.mutating]
    | error e =>
      refine ⟨?_, fun _ => ?_, ?_, ?_⟩ <;>
        simp [execTool, hr, ToolCall.mutating]
  | create raw content =>
    have hm := @mutTool_facts (createFile raw content v) v
      (fun v1 h => createFile_version h)
    exact ⟨hm.1, fun hc => absurd hc (by simp [ToolCall.mutating]),
      by rw [show ToolCall.mutating (.create raw content) = true from rfl]
         simpa using hm.2.1,
      fun hok _ => hm.2.2 hok⟩
  | replace raw oldText newText =>
    have hm := @mutTool_facts (replaceInFile raw oldText newText v) v
      (fun v1 h => replaceInFile_version h)
    exact ⟨hm.1, fun hc => absurd hc (by simp [ToolCall.mutating]),
      by rw [show ToolCall.mutating (.replace raw oldText newText) = true from rfl]
         simpa using hm.2.1,
      fun hok _ => hm.2.2 hok⟩
  | insert raw ln text =>
    have hm := @mutTool_facts (insertAt raw ln text v) v
      (fun v1 h => insertAt_version h)
    exact ⟨hm.1, fun hc => absurd hc (by simp [ToolCall.mutating]),
      by rw [show ToolCall.mutating (.insert raw ln text) = true from rfl]
         simpa using hm.2.1,
      fun hok _ => hm.2.2 hok⟩
  | rename src dst =>
    have hm := @mutTool_facts (renameNode src dst v) v
      (fun v1 h => renameNode_version h)
    exact ⟨hm.1, fun hc => absurd hc (by simp [ToolCall.mutating]),
      by rw [show ToolCall.mutating (.rename src dst) = true from rfl]
         simpa using hm.2.1,
      fun hok _ => hm.2.2 hok⟩
  | delete raw =>
    have hm := @mutTool_facts (deleteNode raw v) v
      (fun v1 h => deleteNode_version h)
    exact ⟨hm.1, fun hc => absurd hc (by simp [ToolCall.mutating]),
      by rw [show ToolCall.mutating (.delete raw) = true from rfl]
         simpa using hm.2.1,
      fun hok _ => hm.2.2 hok⟩

/-- Witness for C5 at a concrete successful create and a concrete read. -/
theorem claim_C5_version_discipline_witness :
    (((execTool (.create "/a.txt" "x") emptyVfs).1.isOk = false →
        (execTool (.create "/a.txt" "x") emptyVfs).2 = emptyVfs) ∧
      ((ToolCall.create "/a.txt" "x").mutating = false →
        (execTool (.create "/a.txt" "x") emptyVfs).2 = emptyVfs) ∧
      ((execTool (.create "/a.txt" "x") emptyVfs).2.version ≠ emptyVfs.version ↔
        ((execTool (.create "/a.txt" "x") emptyVfs).1.isOk = true ∧
          (ToolCall.create "/a.txt" "x").mutating = true)) ∧
      ((execTool (.create "/a.txt" "x") emptyVfs).1.isOk = true →
        (ToolCall.create "/a.txt" "x").mutating = true →
        (execTool (.create "/a.txt" "x") emptyVfs).2.version =
          emptyVfs.version + 1)) :=
  claim_C5_version_discipline (.create "/a.txt" "x") emptyVfs

/-- C6: against a stand-in model that always emits tool calls, the loop
terminates in `Done` after exactly the configured step budget of
request/execute rounds, with no transport error, and persists a non-null
snapshot. -/
theorem claim_C6_step_budget :
    ∀ (model : Nat → Option Turn) (budget : Nat) (v : Vfs),
      (∀ i, ∃ t, model i = some t ∧ t.toolCalls ≠ []) →
      (runLoop model budget v).state = .done ∧
      (runLoop model budget v).rounds = budget ∧
      (runLoop model budget v).snapshot.isSome = true := by
  intro model budget v h
  rcases runLoopAux_budget model h budget 0 v [] with ⟨h1, h2, h3⟩
  refine ⟨h1, ?_, h3⟩
  rw [runLoop, h2]
  omega

/-- Witness for C6: a stand-in that always issues one `view` call, with a
budget of three rounds. -/
theorem claim_C6_step_budget_witness :
    (runLoop (fun _ => some ⟨"", [.view "/x"]⟩) 3 emptyVfs).state = .done ∧
    (runLoop (fun _ => some ⟨"", [.view "/x"]⟩) 3 emptyVfs).rounds = 3 ∧
    (runLoop (fun _ => some ⟨"", [.view "/x"]⟩) 3 emptyVfs).snapshot.isSome = true :=
  claim_C6_step_budget (fun _ => some ⟨"", [.view "/x"]⟩) 3 emptyVfs
    (fun i => ⟨⟨"", [.view "/x"]⟩, rfl, by simp⟩)

/-- C7: entry-point detection probes the fixed ordered candidate list and
returns the first candidate that exists in the tree; a tree with none of
the candidates reports no entry point, and a tree containing only
`/index.tsx` selects `/index.tsx`. -/
theorem claim_C7_entry_point :
    (∀ v : Vfs,
      (detectEntryPoint v =
        (if existsInTree v "/App.jsx" then some "/App.jsx"
         else if existsInTree v "/App.tsx" then some "/App.tsx"
         else if existsInTree v "/index.jsx" then some "/index.jsx"
         else if existsInTree v "/index.tsx" then some "/index.tsx"
         else none)) ∧
      ((∀ c ∈ entryPointCandidates, existsInTree v c = false) →
        detectEntryPoint v = none) ∧
      (∀ c, detectEntryPoint v = some c →
        c ∈ entryPointCandidates ∧ existsInTree v c = true)) ∧
    detectEntryPoint c7demo = some "/index.tsx" ∧
    detectEntryPoint emptyVfs = none := by
  refine ⟨?_, by decide, by decide⟩
  intro v
  refine ⟨?_, ?_, ?_⟩
  · cases h1 : existsInTree v "/App.jsx" with
    | true => simp [detectEntryPoint, entryPointCandidates, List.find?, h1]
    | false =>
      cases h2 : existsInTree v "/App.tsx" with
      | true => simp [detectEntryPoint, entryPointCandidates, List.find?, h1, h2]
      | false =>
        cases h3 : existsInTree v "/index.jsx" with
        | true =>
          simp [detectEntryPoint, entryPointCandidates, List.find?, h1, h2, h3]
        | false =>
          cases h4 : existsInTree v "/index.tsx" with
          | true =>
            simp [detectEntryPoint, entryPointCandidates, List.find?,
              h1, h2, h3, h4]
          | false =>
            simp [detectEntryPoint, entryPointCandidates, List.find?,
              h1, h2, h3, h4]
  · intro h
    refine List.find?_eq_none.mpr ?_
    intro c hc
    simp [h c hc]
  · intro c hc
    exact ⟨List.mem_of_find?_eq_some hc, List.find?_some hc⟩

end VfsModel

/-- C8: `main` in `hooks/query_hook.js` calls `process.exit(0)` as its
first statement, so for every input the hook exits with code 0 and the
blocking branch (`process.exit(2)`) is unreachable. -/
theorem claim_C8_hook_always_allows :
    ∀ input : HookModel.HookInput,
      HookModel.hookExitCode input = 0 ∧
      HookModel.mainBody input = HookModel.exitWith 0 ∧
      HookModel.mainBody input ≠ .error 2 := by
  intro input
  refine ⟨rfl, rfl, ?_⟩
  intro hc
  have h0 : HookModel.mainBody input = .error 0 := rfl
  rw [h0] at hc
  cases Except.error.inj hc

/-- C9: `getOrderDetails` returns null exactly when the join query yields
zero rows; because the query inner-joins `order_items`, an order that
exists but has no order items also yields null; and when rows exist the
returned `items` array has one entry per returned row. -/
theorem claim_C9_order_details :
    ∀ (db : OrdersModel.Db) (orderId : Nat),
      (OrdersModel.getOrderDetails db orderId = none ↔
        OrdersModel.orderDetailsQuery db orderId = []) ∧
      ((∃ o ∈ db.orders, o.order_id = orderId) →
        (∀ oi ∈ db.order_items, oi.order_id ≠ orderId) →
        OrdersModel.getOrderDetails db orderId = none) ∧
      (∀ d, OrdersModel.getOrderDetails db orderId = some d →
        d.items.length = (OrdersModel.orderDetailsQuery db orderId).length) := by
  intro db orderId
  refine ⟨?_, ?_, ?_⟩
  · unfold OrdersModel.getOrderDetails
    cases hq : OrdersModel.orderDetailsQuery db orderId with
    | nil => simp
    | cons r rest => simp
  · intro _ hno
    have hq : OrdersModel.orderDetailsQuery db orderId = [] := by
      unfold OrdersModel.orderDetailsQuery
      rw [List.flatMap_eq_nil_iff]
      intro o ho
      have hoid : o.order_id = orderId := by
        have := List.of_mem_filter ho
        simpa using this
      rw [List.flatMap_eq_nil_iff]
      intro c _
      have hitems : db.order_items.filter
          (fun oi => oi.order_id = o.order_id) = [] := by
        rw [List.filter_eq_nil_iff]
        intro oi hoi
        simp only [decide_eq_true_eq]
        rw [hoid]
        exact hno oi hoi
      rw [hitems]
      rfl
    unfold OrdersModel.getOrderDetails
    rw [hq]
  · intro d hd
    unfold OrdersModel.getOrderDetails at hd
    cases hq : OrdersModel.orderDetailsQuery db orderId with
    | nil => rw [hq] at hd; cases hd
    | cons r rest =>
      rw [hq] at hd
      have hdval := Option.some.inj hd
      rw [← hdval]
      simp

/-- Witness for C9: a database holding order 1 (with a matching customer)
but no order items yields `none`. -/
theorem claim_C9_order_details_witness :
    OrdersModel.getOrderDetails
      ⟨[⟨1, 7, "2024-01-01", "pending", 10, "a", "b", "c", "d"⟩],
        [⟨7, "x@y.z"⟩], [], []⟩ 1 = none :=
  (claim_C9_order_details
      ⟨[⟨1, 7, "2024-01-01", "pending", 10, "a", "b", "c", "d"⟩],
        [⟨7, "x@y.z"⟩], [], []⟩ 1).2.1
    (by decide) (by decide)

/-- C10: `checkPromoEligibility` never returns null or undefined — its
result type is total: when the database lookup yields no row it returns an
object whose `eligibility_status` is `"Invalid promotion code"` and whose
`promo_code` equals the given argument; otherwise it returns the row
unchanged. -/
theorem claim_C10_promo_fallback :
    ∀ (row : Option PromoModel.PromoEligibility) (promoCode : String),
      (row = none →
        (PromoModel.checkPromoEligibility row promoCode).eligibility_status =
          "Invalid promotion code" ∧
        (PromoModel.checkPromoEligibility row promoCode).promo_code =
          some promoCode) ∧
      (∀ r, row = some r →
        PromoModel.checkPromoEligibility row promoCode = r) := by
  intro row promoCode
  refine ⟨?_, ?_⟩
  · intro h
    subst h
    exact ⟨rfl, rfl⟩
  · intro r h
    subst h
    rfl

/-- Witness for C10 at a concrete missing promo code. -/
theorem claim_C10_promo_fallback_witness :
    (PromoModel.checkPromoEligibility none "SAVE10").eligibility_status =
      "Invalid promotion code" ∧
    (PromoModel.checkPromoEligibility none "SAVE10").promo_code =
      some "SAVE10" :=
  (claim_C10_promo_fallback none "SAVE10").1 rfl

/-- Witness for C7: the concrete detections, via the claim theorem. -/
theorem claim_C7_entry_point_witness :
    VfsModel.detectEntryPoint VfsModel.c7demo = some "/index.tsx" ∧
    VfsModel.detectEntryPoint VfsModel.emptyVfs = none :=
  ⟨VfsModel.claim_C7_entry_point.2.1, VfsModel.claim_C7_entry_point.2.2⟩

/-- Witness for C8 at a concrete hook input. -/
theorem claim_C8_hook_always_allows_witness :
    HookModel.hookExitCode ⟨some "src/queries/a.ts", true, true, false⟩ = 0 ∧
    HookModel.mainBody ⟨some "src/queries/a.ts", true, true, false⟩ =
      HookModel.exitWith 0 ∧
    HookModel.mainBody ⟨some "src/queries/a.ts", true, true, false⟩ ≠
      .error 2 :=
  claim_C8_hook_always_allows ⟨some "src/queries/a.ts", true, true, false⟩
